import Mathlib

/-!
Shallow embedding of the SealEngine scene-graph and instance-data core
(`src/scene.rs`, `src/instance.rs`, `src/instance_manager.rs`).

Modelling choices:
* `f32` scalars are embedded as exact rationals `ℚ`; the claims under
  verification are structural (which matrix is stored where), not about
  floating-point rounding.
* `HashMap<NodeHandle, _>` is embedded as an association list
  `List (Nat × _)` with first-match lookup and replace-or-append insert;
  no claim depends on hash iteration order.
* The recursive traversals (`mark_transform_dirty`,
  `update_node_transform`) are not structurally terminating (the node
  graph may contain cycles), so they are embedded fuel-indexed: `none`
  means the recursion did not complete within the given fuel, and
  nontermination of the source is `= none` for every fuel.
* `glm::inverse` of a singular 3×3 matrix yields IEEE inf/NaN in the
  source; over `ℚ` the embedded inverse yields junk (division by zero is
  zero).  No claim inspects the normal matrix of a singular instance.
-/

/-- 3-component vector over ℚ (source: `glm::Vec3`). -/
structure Vec3 where
  x : ℚ
  y : ℚ
  z : ℚ
deriving DecidableEq, Repr

/-- Quaternion over ℚ (source: `glm::Quat`). -/
structure Quat where
  w : ℚ
  x : ℚ
  y : ℚ
  z : ℚ
deriving DecidableEq, Repr

/-- 4×4 matrix over ℚ, row-major fields (source: `glm::Mat4`). -/
structure Mat4 where
  m00 : ℚ
  m01 : ℚ
  m02 : ℚ
  m03 : ℚ
  m10 : ℚ
  m11 : ℚ
  m12 : ℚ
  m13 : ℚ
  m20 : ℚ
  m21 : ℚ
  m22 : ℚ
  m23 : ℚ
  m30 : ℚ
  m31 : ℚ
  m32 : ℚ
  m33 : ℚ
deriving DecidableEq, Repr

/-- Matrix product (source: `Mat4 * Mat4`). -/
def Mat4.mul (A B : Mat4) : Mat4 where
  m00 := A.m00*B.m00 + A.m01*B.m10 + A.m02*B.m20 + A.m03*B.m30
  m01 := A.m00*B.m01 + A.m01*B.m11 + A.m02*B.m21 + A.m03*B.m31
  m02 := A.m00*B.m02 + A.m01*B.m12 + A.m02*B.m22 + A.m03*B.m32
  m03 := A.m00*B.m03 + A.m01*B.m13 + A.m02*B.m23 + A.m03*B.m33
  m10 := A.m10*B.m00 + A.m11*B.m10 + A.m12*B.m20 + A.m13*B.m30
  m11 := A.m10*B.m01 + A.m11*B.m11 + A.m12*B.m21 + A.m13*B.m31
  m12 := A.m10*B.m02 + A.m11*B.m12 + A.m12*B.m22 + A.m13*B.m32
  m13 := A.m10*B.m03 + A.m11*B.m13 + A.m12*B.m23 + A.m13*B.m33
  m20 := A.m20*B.m00 + A.m21*B.m10 + A.m22*B.m20 + A.m23*B.m30
  m21 := A.m20*B.m01 + A.m21*B.m11 + A.m22*B.m21 + A.m23*B.m31
  m22 := A.m20*B.m02 + A.m21*B.m12 + A.m22*B.m22 + A.m23*B.m32
  m23 := A.m20*B.m03 + A.m21*B.m13 + A.m22*B.m23 + A.m23*B.m33
  m30 := A.m30*B.m00 + A.m31*B.m10 + A.m32*B.m20 + A.m33*B.m30
  m31 := A.m30*B.m01 + A.m31*B.m11 + A.m32*B.m21 + A.m33*B.m31
  m32 := A.m30*B.m02 + A.m31*B.m12 + A.m32*B.m22 + A.m33*B.m32
  m33 := A.m30*B.m03 + A.m31*B.m13 + A.m32*B.m23 + A.m33*B.m33

/-- Identity matrix (source: `glm::Mat4::identity()`). -/
def mat4Id : Mat4 where
  m00 := 1
  m01 := 0
  m02 := 0
  m03 := 0
  m10 := 0
  m11 := 1
  m12 := 0
  m13 := 0
  m20 := 0
  m21 := 0
  m22 := 1
  m23 := 0
  m30 := 0
  m31 := 0
  m32 := 0
  m33 := 1

theorem Mat4.id_mul (B : Mat4) : Mat4.mul mat4Id B = B := by
  cases B
  simp [Mat4.mul, mat4Id]

/-- Translation matrix (source: `glm::translation`). -/
def translationM (p : Vec3) : Mat4 :=
  { mat4Id with m03 := p.x, m13 := p.y, m23 := p.z }

/-- Scaling matrix (source: `glm::scaling`). -/
def scalingM (s : Vec3) : Mat4 :=
  { mat4Id with m00 := s.x, m11 := s.y, m22 := s.z }

/-- Rotation matrix of a quaternion (source: `glm::quat_to_mat4`),
standard homogeneous rotation matrix. -/
def quatToMat4 (q : Quat) : Mat4 where
  m00 := 1 - 2*(q.y*q.y + q.z*q.z)
  m01 := 2*(q.x*q.y - q.w*q.z)
  m02 := 2*(q.x*q.z + q.w*q.y)
  m03 := 0
  m10 := 2*(q.x*q.y + q.w*q.z)
  m11 := 1 - 2*(q.x*q.x + q.z*q.z)
  m12 := 2*(q.y*q.z - q.w*q.x)
  m13 := 0
  m20 := 2*(q.x*q.z - q.w*q.y)
  m21 := 2*(q.y*q.z + q.w*q.x)
  m22 := 1 - 2*(q.x*q.x + q.y*q.y)
  m23 := 0
  m30 := 0
  m31 := 0
  m32 := 0
  m33 := 1

/-- Identity quaternion (source: `glm::quat_identity()`). -/
def quatId : Quat := ⟨1, 0, 0, 0⟩

/-- Zero vector (source: `glm::vec3(0.0, 0.0, 0.0)`). -/
def vec3Zero : Vec3 := ⟨0, 0, 0⟩

/-- Unit-scale vector (source: `glm::vec3(1.0, 1.0, 1.0)`). -/
def vec3One : Vec3 := ⟨1, 1, 1⟩

/-- Source: `scene.rs` `Transform` (position, rotation, scale). -/
structure Transform where
  position : Vec3
  rotation : Quat
  scale : Vec3
deriving DecidableEq, Repr

/-- Source: `Transform::new()`. -/
def Transform.new : Transform :=
  { position := vec3Zero, rotation := quatId, scale := vec3One }

/-- Source: `Transform::to_matrix`: `translation * rotation * scale`. -/
def Transform.toMatrix (t : Transform) : Mat4 :=
  Mat4.mul (Mat4.mul (translationM t.position) (quatToMat4 t.rotation)) (scalingM t.scale)

/-- Source: `instance.rs` `Instance` (position, rotation, scale). -/
structure Instance where
  position : Vec3
  rotation : Quat
  scale : Vec3
deriving DecidableEq, Repr

/-- Source: `Instance::new()`. -/
def Instance.new : Instance :=
  { position := vec3Zero, rotation := quatId, scale := vec3One }

/-- Source: `Instance::to_matrix`: `translation * rotation * scale`. -/
def Instance.toMatrix (i : Instance) : Mat4 :=
  Mat4.mul (Mat4.mul (translationM i.position) (quatToMat4 i.rotation)) (scalingM i.scale)

/-- 3×3 matrix over ℚ, used for the normal-matrix computation. -/
structure Mat3 where
  a00 : ℚ
  a01 : ℚ
  a02 : ℚ
  a10 : ℚ
  a11 : ℚ
  a12 : ℚ
  a20 : ℚ
  a21 : ℚ
  a22 : ℚ
deriving DecidableEq, Repr

/-- Upper-left 3×3 block of a 4×4 matrix (source: `fixed_view::<3,3>(0,0)`). -/
def Mat4.upperLeft3 (m : Mat4) : Mat3 :=
  ⟨m.m00, m.m01, m.m02, m.m10, m.m11, m.m12, m.m20, m.m21, m.m22⟩

/-- Determinant of a 3×3 matrix. -/
def Mat3.det (m : Mat3) : ℚ :=
  m.a00*(m.a11*m.a22 - m.a12*m.a21)
  - m.a01*(m.a10*m.a22 - m.a12*m.a20)
  + m.a02*(m.a10*m.a21 - m.a11*m.a20)

/-- Cofactor inverse of a 3×3 matrix (source: `glm::inverse`); for a
singular matrix the source produces IEEE inf/NaN, here division by the
zero determinant yields zeros.  No claim depends on that case. -/
def Mat3.inv (m : Mat3) : Mat3 :=
  let d := m.det
  ⟨(m.a11*m.a22 - m.a12*m.a21)/d, (m.a02*m.a21 - m.a01*m.a22)/d, (m.a01*m.a12 - m.a02*m.a11)/d,
   (m.a12*m.a20 - m.a10*m.a22)/d, (m.a00*m.a22 - m.a02*m.a20)/d, (m.a02*m.a10 - m.a00*m.a12)/d,
   (m.a10*m.a21 - m.a11*m.a20)/d, (m.a01*m.a20 - m.a00*m.a21)/d, (m.a00*m.a11 - m.a01*m.a10)/d⟩

/-- Transpose of a 3×3 matrix (source: `glm::transpose`). -/
def Mat3.transpose (m : Mat3) : Mat3 :=
  ⟨m.a00, m.a10, m.a20, m.a01, m.a11, m.a21, m.a02, m.a12, m.a22⟩

/-- Source: `instance.rs` `InstanceRaw.normal_matrix`: a `[[f32; 4]; 3]`,
three rows of four scalars. -/
structure Raw3x4 where
  n00 : ℚ
  n01 : ℚ
  n02 : ℚ
  n03 : ℚ
  n10 : ℚ
  n11 : ℚ
  n12 : ℚ
  n13 : ℚ
  n20 : ℚ
  n21 : ℚ
  n22 : ℚ
  n23 : ℚ
deriving DecidableEq, Repr

/-- Source: `Instance::calc_normal_matrix`: transpose of the inverse of
the upper-left 3×3 block, rows padded with a trailing 0. -/
def Instance.calcNormalMatrix (model : Mat4) : Raw3x4 :=
  let n := (Mat3.inv model.upperLeft3).transpose
  ⟨n.a00, n.a01, n.a02, 0, n.a10, n.a11, n.a12, 0, n.a20, n.a21, n.a22, 0⟩

/-- Source: `instance.rs` `InstanceRaw`. -/
structure InstanceRaw where
  model : Mat4
  normal_matrix : Raw3x4
deriving DecidableEq, Repr

/-- Source: `Instance::to_raw`. -/
def Instance.toRaw (i : Instance) : InstanceRaw :=
  let model := i.toMatrix
  { model := model, normal_matrix := Instance.calcNormalMatrix model }

/-- The padding record used by `create_instance_buffer`: identity model
matrix and the literal identity normal-matrix rows from the source. -/
def identityRaw : InstanceRaw :=
  { model := mat4Id
    normal_matrix := ⟨1, 0, 0, 0, 0, 1, 0, 0, 0, 0, 1, 0⟩ }

/-- Source: `model.rs` `Model` — opaque to the scene graph; only stored
and forwarded, never inspected (spec §6), so embedded as `Unit`. -/
def Model : Type := Unit
deriving instance DecidableEq for Model

/-- Source: `scene.rs` `SceneNode`. -/
structure SceneNode where
  name : String
  transform : Transform
  world_transform : Mat4
  parent : Option Nat
  children : List Nat
  model : Option Model
  instances : List Instance
  visible : Bool
deriving DecidableEq

/-- Source: `SceneNode::new`. -/
def SceneNode.new (name : String) : SceneNode where
  name := name
  transform := Transform.new
  world_transform := mat4Id
  parent := none
  children := []
  model := none
  instances := [Instance.new]
  visible := true

/-- First-match association-list lookup (embedding of `HashMap::get`). -/
def lookupA {α : Type} : List (Nat × α) → Nat → Option α
  | [], _ => none
  | (k, v) :: rest, h => if k = h then some v else lookupA rest h

/-- Replace-or-append insert (embedding of `HashMap::insert`). -/
def insertA {α : Type} : List (Nat × α) → Nat → α → List (Nat × α)
  | [], h, v => [(h, v)]
  | (k, w) :: rest, h, v => if k = h then (k, v) :: rest else (k, w) :: insertA rest h v

/-- Key removal (embedding of `HashMap::remove`). -/
def removeA {α : Type} : List (Nat × α) → Nat → List (Nat × α)
  | [], _ => []
  | (k, w) :: rest, h => if k = h then removeA rest h else (k, w) :: removeA rest h

/-- In-place update of the value at a key (embedding of a mutation
through `HashMap::get_mut`); absent key means no change. -/
def modifyA {α : Type} : List (Nat × α) → Nat → (α → α) → List (Nat × α)
  | [], _, _ => []
  | (k, w) :: rest, h, f =>
    if k = h then (k, f w) :: modifyA rest h f else (k, w) :: modifyA rest h f

/-- Source: `scene.rs` `SceneGraph` (handles embedded as `Nat`). -/
structure SceneGraph where
  nodes : List (Nat × SceneNode)
  root : Nat
  next_handle : Nat
  dirty_transforms : List Nat
deriving DecidableEq

/-- Source: `SceneGraph::new`. -/
def SceneGraph.new (root_name : String) : SceneGraph where
  nodes := insertA [] 0 (SceneNode.new root_name)
  root := 0
  next_handle := 1
  dirty_transforms := []

/-- `HashMap::get` on the node table. -/
def lookupNode (g : SceneGraph) (h : Nat) : Option SceneNode :=
  lookupA g.nodes h

/-- `HashMap::contains_key` on the node table. -/
def containsNode (g : SceneGraph) (h : Nat) : Bool :=
  (lookupNode g h).isSome

/-- Source: `SceneGraph::create_node`; returns the mutated graph and the
fresh handle. -/
def create_node (g : SceneGraph) (name : String) : SceneGraph × Nat :=
  let handle := g.next_handle
  let g1 : SceneGraph :=
    { g with next_handle := g.next_handle + 1
             nodes := insertA g.nodes handle (SceneNode.new name) }
  ({ g1 with dirty_transforms := g1.dirty_transforms ++ [handle] }, handle)

/-- Sequential processing of a children list by a fueled recursive call;
`none` propagates a non-terminating recursive call (embedding of the
`for child in children` loops of `scene.rs`). -/
def foldChildren (f : SceneGraph → Nat → Option SceneGraph) : SceneGraph → List Nat → Option SceneGraph
  | g, [] => some g
  | g, c :: cs =>
    match f g c with
    | none => none
    | some g' => foldChildren f g' cs

/-- Source: `SceneGraph::mark_transform_dirty`, fuel-indexed.  Note the
source pushes `handle` into `dirty_transforms` before looking it up, so
an absent handle still lands in the dirty set. -/
def markDirtyF : Nat → SceneGraph → Nat → Option SceneGraph
  | 0, _, _ => none
  | fuel+1, g, handle =>
    let g1 := if handle ∈ g.dirty_transforms then g
              else { g with dirty_transforms := g.dirty_transforms ++ [handle] }
    match lookupNode g1 handle with
    | none => some g1
    | some node => foldChildren (fun acc c => markDirtyF fuel acc c) g1 node.children

/-- Source: `SceneGraph::attach_to_parent`.  The result pairs the graph
after the call with the returned `Result`; `none` means the recursive
dirty-marking did not terminate. -/
def attach_to_parentF (fuel : Nat) (g : SceneGraph) (child parent : Nat) :
    Option (SceneGraph × Except String Unit) :=
  if !(containsNode g child) || !(containsNode g parent) then
    some (g, Except.error "Invalid node handle...")
  else
    let g1 := match (lookupNode g child).bind (fun n => n.parent) with
      | some old_parent =>
          { g with nodes := (modifyA g.nodes old_parent
              (fun n => { n with children := n.children.filter (fun h => h ≠ child) })) }
      | none => g
    let g2 := { g1 with nodes := modifyA g1.nodes child (fun n => { n with parent := some parent }) }
    let g3 := { g2 with nodes := modifyA g2.nodes parent (fun n => { n with children := n.children ++ [child] }) }
    (markDirtyF fuel g3 child).map (fun g4 => (g4, Except.ok ()))

/-- Source: `SceneGraph::attach_to_root`. -/
def attach_to_rootF (fuel : Nat) (g : SceneGraph) (child : Nat) :
    Option (SceneGraph × Except String Unit) :=
  attach_to_parentF fuel g child g.root

/-- Source: `SceneGraph::set_transform`: silently ignores an absent
handle, otherwise overwrites the local transform and dirty-marks. -/
def set_transformF (fuel : Nat) (g : SceneGraph) (handle : Nat) (t : Transform) :
    Option SceneGraph :=
  if containsNode g handle then
    markDirtyF fuel
      { g with nodes := modifyA g.nodes handle (fun n => { n with transform := t }) }
      handle
  else some g

/-- Source: `SceneGraph::update_node_transform`, fuel-indexed.  Reads the
local transform, writes `world = parent_world * local`, then recurses
into the children. -/
def updateNodeF : Nat → SceneGraph → Nat → Mat4 → Option SceneGraph
  | 0, _, _, _ => none
  | fuel+1, g, handle, parent_world =>
    match lookupNode g handle with
    | none => some g
    | some node =>
      let world := Mat4.mul parent_world node.transform.toMatrix
      let g1 := { g with nodes := modifyA g.nodes handle (fun n => { n with world_transform := world }) }
      foldChildren (fun acc c => updateNodeF fuel acc c world) g1 node.children

/-- Source: `SceneGraph::update_transforms`: no-op on an empty dirty set,
otherwise a depth-first pass from the root followed by an unconditional
clear of the dirty set. -/
def update_transformsF (fuel : Nat) (g : SceneGraph) : Option SceneGraph :=
  if g.dirty_transforms = [] then some g
  else (updateNodeF fuel g g.root mat4Id).map (fun g' => { g' with dirty_transforms := [] })

/-- A GPU-resident instance buffer, embedded by its logical contents: a
fixed-length array of raw instance records (`wgpu::Buffer` created with
`create_buffer_init`). -/
structure GPUBuffer where
  data : List InstanceRaw
deriving DecidableEq

/-- Source: `queue.write_buffer(buffer, 0, bytes)`: overwrite the buffer
contents from offset 0, leaving any tail beyond the written range.  The
manager only issues in-range writes (`instances.len() ≤ capacity`). -/
def writeBuffer (b : GPUBuffer) (xs : List InstanceRaw) : GPUBuffer :=
  ⟨xs ++ b.data.drop xs.length⟩

/-- Source: `Vec::resize(n, v)`: truncate or pad with copies of `v`. -/
def listResize {α : Type} (l : List α) (n : Nat) (v : α) : List α :=
  if n ≤ l.length then l.take n else l ++ List.replicate (n - l.length) v

/-- Source: `instance_manager.rs` `InstanceManager`.  `instance_counts`
stores `u32` values (`instances.len() as u32`), embedded as `Nat` mod
`2^32`. -/
structure InstanceManager where
  instance_buffers : List (Nat × GPUBuffer)
  instance_counts : List (Nat × Nat)
  max_instances_per_buffer : Nat
deriving DecidableEq

/-- Source: `InstanceManager::new`. -/
def InstanceManager.new (max_instances_per_buffer : Nat) : InstanceManager where
  instance_buffers := []
  instance_counts := []
  max_instances_per_buffer := max_instances_per_buffer

/-- Source: `InstanceManager::create_instance_buffer`: allocate a buffer
of length `max(data.len(), max_instances_per_buffer)`, padding the tail
with identity records. -/
def create_instance_buffer (m : InstanceManager) (node_handle : Nat)
    (instance_data : List InstanceRaw) : InstanceManager :=
  let buffer_size := max instance_data.length m.max_instances_per_buffer
  let buffer_data := listResize instance_data buffer_size identityRaw
  { m with instance_buffers := insertA m.instance_buffers node_handle ⟨buffer_data⟩ }

/-- Source: `InstanceManager::update_instances`: write in place when a
buffer exists and the new count fits the configured maximum, recreate
otherwise, then record `instances.len() as u32`. -/
def update_instances (m : InstanceManager) (node_handle : Nat)
    (instances : List Instance) : InstanceManager :=
  let instance_data := instances.map Instance.toRaw
  let m1 := match lookupA m.instance_buffers node_handle with
    | some buffer =>
      if instances.length ≤ m.max_instances_per_buffer then
        { m with instance_buffers :=
            insertA m.instance_buffers node_handle (writeBuffer buffer instance_data) }
      else create_instance_buffer m node_handle instance_data
    | none => create_instance_buffer m node_handle instance_data
  { m1 with instance_counts := insertA m1.instance_counts node_handle (instances.length % 2^32) }

/-- Mirror of the branch condition of `update_instances`: `true` exactly
when the call takes the `create_instance_buffer` path (a fresh GPU
allocation) rather than the in-place `write_buffer` path. -/
def createsOnUpdate (m : InstanceManager) (node_handle : Nat) (instances : List Instance) : Bool :=
  match lookupA m.instance_buffers node_handle with
  | some _ => decide (m.max_instances_per_buffer < instances.length)
  | none => true

/-- Source: `InstanceManager::get_buffer`. -/
def get_buffer (m : InstanceManager) (node_handle : Nat) : Option GPUBuffer :=
  lookupA m.instance_buffers node_handle

/-- Source: `InstanceManager::get_instance_count`: defaults to 0. -/
def get_instance_count (m : InstanceManager) (node_handle : Nat) : Nat :=
  (lookupA m.instance_counts node_handle).getD 0

/-- Source: `InstanceManager::remove_node`. -/
def remove_node (m : InstanceManager) (node_handle : Nat) : InstanceManager :=
  { m with instance_buffers := removeA m.instance_buffers node_handle
           instance_counts := removeA m.instance_counts node_handle }

/-! ### Association-list lemmas -/

theorem lookupA_insertA_self {α : Type} (l : List (Nat × α)) (h : Nat) (v : α) :
    lookupA (insertA l h v) h = some v := by
  induction l with
  | nil => simp [insertA, lookupA]
  | cons p rest ih =>
    by_cases hk : p.1 = h
    · simp [insertA, hk, lookupA]
    · cases p with
      | mk k w => simp_all [insertA, lookupA]

theorem lookupA_insertA_ne {α : Type} (l : List (Nat × α)) (h d : Nat) (v : α)
    (hne : d ≠ h) : lookupA (insertA l h v) d = lookupA l d := by
  have hhd : h ≠ d := fun e => hne e.symm
  induction l with
  | nil => simp [insertA, lookupA, hhd]
  | cons p rest ih =>
    cases p with
    | mk k w =>
      by_cases hk : k = h
      · subst hk
        simp [insertA, lookupA, hhd]
      · by_cases hd : k = d
        · simp [insertA, lookupA, hk, hd, hne]
        · simp [insertA, lookupA, hk, hd, ih]

theorem lookupA_removeA_self {α : Type} (l : List (Nat × α)) (h : Nat) :
    lookupA (removeA l h) h = none := by
  induction l with
  | nil => simp [removeA, lookupA]
  | cons p rest ih =>
    cases p with
    | mk k w =>
      by_cases hk : k = h
      · simpa [removeA, hk] using ih
      · simp [removeA, hk, lookupA, ih]

theorem lookupA_removeA_ne {α : Type} (l : List (Nat × α)) (h d : Nat) (hne : d ≠ h) :
    lookupA (removeA l h) d = lookupA l d := by
  have hhd : h ≠ d := fun e => hne e.symm
  induction l with
  | nil => simp [removeA]
  | cons p rest ih =>
    cases p with
    | mk k w =>
      by_cases hk : k = h
      · subst hk
        simp [removeA, lookupA, hhd, ih]
      · by_cases hd : k = d
        · simp [removeA, lookupA, hk, hd, hne]
        · simp [removeA, lookupA, hk, hd, ih]

theorem lookupA_map_val {α β : Type} (f : α → β) (l : List (Nat × α)) (h : Nat) :
    lookupA (l.map (fun p => (p.1, f p.2))) h = (lookupA l h).map f := by
  induction l with
  | nil => simp [lookupA]
  | cons p rest ih =>
    by_cases hk : p.1 = h
    · simp [lookupA, hk]
    · simp [lookupA, hk, ih]

theorem lookupA_modifyA_self {α : Type} (l : List (Nat × α)) (h : Nat) (f : α → α) :
    lookupA (modifyA l h f) h = (lookupA l h).map f := by
  induction l with
  | nil => simp [modifyA, lookupA]
  | cons p rest ih =>
    cases p with
    | mk k w =>
      by_cases hk : k = h
      · subst hk
        simp [modifyA, lookupA]
      · simpa [modifyA, lookupA, hk] using ih

theorem lookupA_modifyA_ne {α : Type} (l : List (Nat × α)) (h d : Nat) (f : α → α)
    (hne : d ≠ h) : lookupA (modifyA l h f) d = lookupA l d := by
  have hhd : h ≠ d := fun e => hne e.symm
  induction l with
  | nil => simp [modifyA, lookupA]
  | cons p rest ih =>
    cases p with
    | mk k w =>
      by_cases hk : k = h
      · subst hk
        simpa [modifyA, lookupA, hhd] using ih
      · by_cases hd : k = d
        · simp [modifyA, lookupA, hk, hd, hne]
        · simpa [modifyA, lookupA, hk, hd] using ih

theorem lookupA_mem {α : Type} {l : List (Nat × α)} {h : Nat} {v : α}
    (hl : lookupA l h = some v) : (h, v) ∈ l := by
  induction l with
  | nil => simp [lookupA] at hl
  | cons p rest ih =>
    by_cases hk : p.1 = h
    · rw [lookupA, if_pos hk] at hl
      cases p with
      | mk k w =>
        obtain rfl : w = v := by simpa using hl
        simp_all
    · rw [lookupA, if_neg hk] at hl
      exact List.mem_cons_of_mem _ (ih hl)

/-! ### Node shape (everything except the derived world transform) and
the children-edge structure of a graph -/

/-- All fields of a `SceneNode` except the derived `world_transform`. -/
structure NodeShape where
  name : String
  transform : Transform
  parent : Option Nat
  children : List Nat
  model : Option Model
  instances : List Instance
  visible : Bool
deriving DecidableEq

/-- Projection of a node onto its shape. -/
def SceneNode.shape (n : SceneNode) : NodeShape :=
  ⟨n.name, n.transform, n.parent, n.children, n.model, n.instances, n.visible⟩

/-- Shape view of a node table. -/
def shapeList (l : List (Nat × SceneNode)) : List (Nat × NodeShape) :=
  l.map (fun p => (p.1, p.2.shape))

/-- Children-edge structure of a node table: each handle with its
children list. -/
def structList (l : List (Nat × SceneNode)) : List (Nat × List Nat) :=
  l.map (fun p => (p.1, p.2.children))

/-- Children-edge structure of a graph. -/
def SceneGraph.struct (g : SceneGraph) : List (Nat × List Nat) :=
  structList g.nodes

theorem lookupA_structList (l : List (Nat × SceneNode)) (h : Nat) :
    lookupA (structList l) h = (lookupA l h).map (fun n => n.children) := by
  simpa [structList] using lookupA_map_val (fun n : SceneNode => n.children) l h

theorem lookupA_shapeList (l : List (Nat × SceneNode)) (h : Nat) :
    lookupA (shapeList l) h = (lookupA l h).map SceneNode.shape := by
  simpa [shapeList] using lookupA_map_val SceneNode.shape l h

theorem structList_of_shapeList {l1 l2 : List (Nat × SceneNode)}
    (h : shapeList l1 = shapeList l2) : structList l1 = structList l2 := by
  have : ∀ l : List (Nat × SceneNode),
      structList l = (shapeList l).map (fun p => (p.1, p.2.children)) := by
    intro l
    simp [structList, shapeList, SceneNode.shape]
  rw [this l1, this l2, h]

theorem lookup_shape_of_shapeList {l1 l2 : List (Nat × SceneNode)}
    (h : shapeList l1 = shapeList l2) (d : Nat) :
    (lookupA l1 d).map SceneNode.shape = (lookupA l2 d).map SceneNode.shape := by
  rw [← lookupA_shapeList, ← lookupA_shapeList, h]

theorem modifyA_shapeList (l : List (Nat × SceneNode)) (h : Nat) (f : SceneNode → SceneNode)
    (hf : ∀ n, (f n).shape = n.shape) : shapeList (modifyA l h f) = shapeList l := by
  induction l with
  | nil => simp [modifyA, shapeList]
  | cons p rest ih =>
    cases p with
    | mk k w =>
      by_cases hk : k = h
      · simp [modifyA, hk, shapeList, hf] at ih ⊢
        exact ih
      · simp [modifyA, hk, shapeList] at ih ⊢
        exact ih

/-! ### Children-edge reachability -/

/-- One children edge in a structure: `b` is listed among the children
of `a` (and `a` is present in the table). -/
def stepRel (s : List (Nat × List Nat)) (a b : Nat) : Prop :=
  ∃ cs, lookupA s a = some cs ∧ b ∈ cs

/-- Reflexive-transitive closure of the children edges: `d` is in the
subtree of `h` (the nodes visited by the recursive traversals started
at `h`). -/
inductive ReachesC (s : List (Nat × List Nat)) : Nat → Nat → Prop
  | refl (a : Nat) : ReachesC s a a
  | step {a b c : Nat} : stepRel s a b → ReachesC s b c → ReachesC s a c

/-- One or more children edges from `a` to `b`. -/
def ProperReach (s : List (Nat × List Nat)) (a b : Nat) : Prop :=
  ∃ z, stepRel s a z ∧ ReachesC s z b

/-- No node is a proper ancestor of itself. -/
def Acyclic (s : List (Nat × List Nat)) : Prop :=
  ∀ a, ¬ ProperReach s a a

theorem ReachesC.trans {s : List (Nat × List Nat)} {a b c : Nat}
    (h1 : ReachesC s a b) (h2 : ReachesC s b c) : ReachesC s a c := by
  induction h1 with
  | refl => exact h2
  | step hs _ ih => exact ReachesC.step hs (ih h2)

theorem ReachesC.snoc {s : List (Nat × List Nat)} {a b c : Nat}
    (h1 : ReachesC s a b) (h2 : stepRel s b c) : ReachesC s a c :=
  h1.trans (ReachesC.step h2 (ReachesC.refl c))

theorem ReachesC.cases_head {s : List (Nat × List Nat)} {a c : Nat}
    (h : ReachesC s a c) : a = c ∨ ∃ b, stepRel s a b ∧ ReachesC s b c := by
  cases h with
  | refl => exact Or.inl rfl
  | step hs ht => exact Or.inr ⟨_, hs, ht⟩

/-- Transfer of reachability along a pointwise inclusion of edges. -/
theorem ReachesC.mono {s1 s2 : List (Nat × List Nat)}
    (hmono : ∀ a b, stepRel s1 a b → stepRel s2 a b) {x y : Nat}
    (h : ReachesC s1 x y) : ReachesC s2 x y := by
  induction h with
  | refl => exact ReachesC.refl _
  | step hs _ ih => exact ReachesC.step (hmono _ _ hs) ih

/-- Length-indexed reachability, for counting arguments. -/
inductive ReachesN (s : List (Nat × List Nat)) : Nat → Nat → Nat → Prop
  | refl (a : Nat) : ReachesN s 0 a a
  | step {n : Nat} {a b c : Nat} : stepRel s a b → ReachesN s n b c → ReachesN s (n+1) a c

theorem ReachesC.toN {s : List (Nat × List Nat)} {a b : Nat}
    (h : ReachesC s a b) : ∃ n, ReachesN s n a b := by
  induction h with
  | refl => exact ⟨0, ReachesN.refl _⟩
  | step hs _ ih =>
    obtain ⟨n, hn⟩ := ih
    exact ⟨n+1, ReachesN.step hs hn⟩

theorem ReachesN.toC {s : List (Nat × List Nat)} {n : Nat} {a b : Nat}
    (h : ReachesN s n a b) : ReachesC s a b := by
  induction h with
  | refl => exact ReachesC.refl _
  | step hs _ ih => exact ReachesC.step hs ih

/-- Last-step decomposition of a nonempty edge path. -/
theorem ReachesN.snoc_decomp {s : List (Nat × List Nat)} {n : Nat} {a c : Nat}
    (h : ReachesN s (n+1) a c) : ∃ b, ReachesN s n a b ∧ stepRel s b c := by
  induction n generalizing a with
  | zero =>
    cases h with
    | step hs ht =>
      cases ht with
      | refl => exact ⟨a, ReachesN.refl a, hs⟩
  | succ m ih =>
    cases h with
    | step hs ht =>
      obtain ⟨b, hb, hbc⟩ := ih ht
      exact ⟨b, ReachesN.step hs hb, hbc⟩

/-- In-degree at most one: a node is listed among the children of at
most one present parent (a consequence of parent/children consistency). -/
def UniquePred (s : List (Nat × List Nat)) : Prop :=
  ∀ a a' b, stepRel s a b → stepRel s a' b → a = a'

theorem ReachesC.split_last {s : List (Nat × List Nat)} {c d : Nat}
    (h : ReachesC s c d) (hne : c ≠ d) : ∃ q, ReachesC s c q ∧ stepRel s q d := by
  obtain ⟨n, hn⟩ := h.toN
  cases n with
  | zero =>
    cases hn
    exact absurd rfl hne
  | succ m =>
    obtain ⟨q, hq, hqd⟩ := hn.snoc_decomp
    exact ⟨q, hq.toC, hqd⟩

/-- Backward determinism: two edge paths into the same endpoint, in a
structure with in-degree one, are suffixes of one another. -/
theorem ReachesN.back {s : List (Nat × List Nat)} (hU : UniquePred s) :
    ∀ n m x y d, n ≤ m → ReachesN s n x d → ReachesN s m y d →
      ReachesN s (m - n) y x := by
  intro n
  induction n with
  | zero =>
    intro m x y d _ h1 h2
    cases h1
    simpa using h2
  | succ k ih =>
    intro m x y d hle h1 h2
    obtain ⟨m', rfl⟩ : ∃ m', m = m' + 1 := ⟨m - 1, by omega⟩
    obtain ⟨q, hq, hqd⟩ := h1.snoc_decomp
    obtain ⟨q', hq', hq'd⟩ := h2.snoc_decomp
    obtain rfl : q = q' := hU _ _ _ hqd hq'd
    have := ih m' x y q (by omega) hq hq'
    simpa [Nat.succ_sub_succ] using this

/-- A child of `h` never reaches back to `h` in an acyclic structure. -/
theorem child_not_reach_parent {s : List (Nat × List Nat)} (hA : Acyclic s)
    {h c : Nat} (hs : stepRel s h c) (hr : ReachesC s c h) : False :=
  hA h ⟨c, hs, hr⟩

/-- Auxiliary form of sibling disjointness, with ordered path lengths. -/
theorem sibling_disjoint_aux {s : List (Nat × List Nat)} (hU : UniquePred s)
    (hA : Acyclic s) {h c1 c2 d n m : Nat} (h1 : stepRel s h c1) (h2 : stepRel s h c2)
    (hne : c1 ≠ c2) (hr1 : ReachesN s n c1 d) (hr2 : ReachesN s m c2 d)
    (hle : n ≤ m) : False := by
  have hback := ReachesN.back hU n m c1 c2 d hle hr1 hr2
  rcases Nat.eq_zero_or_pos (m - n) with hz | hpos
  · rw [hz] at hback
    cases hback
    exact hne rfl
  · obtain ⟨k, hk⟩ : ∃ k, m - n = k + 1 := ⟨m - n - 1, by omega⟩
    rw [hk] at hback
    obtain ⟨q, hq, hqc1⟩ := hback.snoc_decomp
    obtain rfl : q = h := hU _ _ _ hqc1 h1
    exact child_not_reach_parent hA h2 hq.toC

/-- Subtrees of two distinct children of the same parent are disjoint in
an acyclic structure with in-degree one. -/
theorem sibling_disjoint {s : List (Nat × List Nat)} (hU : UniquePred s)
    (hA : Acyclic s) {h c1 c2 d : Nat} (h1 : stepRel s h c1) (h2 : stepRel s h c2)
    (hne : c1 ≠ c2) (hr1 : ReachesC s c1 d) (hr2 : ReachesC s c2 d) : False := by
  obtain ⟨n, hn⟩ := hr1.toN
  obtain ⟨m, hm⟩ := hr2.toN
  rcases Nat.le_total n m with hle | hle
  · exact sibling_disjoint_aux hU hA h1 h2 hne hn hm hle
  · exact sibling_disjoint_aux hU hA h2 h1 (fun e => hne e.symm) hm hn hle

/-! ### Finite-path arguments: pigeonhole termination and cycles -/

theorem stepRel_mem_keys {s : List (Nat × List Nat)} {a b : Nat}
    (h : stepRel s a b) : a ∈ s.map Prod.fst := by
  obtain ⟨cs, hcs, _⟩ := h
  exact List.mem_map.mpr ⟨(a, cs), lookupA_mem hcs, rfl⟩

/-- Builds an explicit edge path out of an abstract fuel-indexed failure
predicate that always exposes one more edge. -/
theorem fails_path {s : List (Nat × List Nat)} (P : Nat → Nat → Prop)
    (hP : ∀ fuel h, P (fuel + 1) h → ∃ c, stepRel s h c ∧ P fuel c) :
    ∀ fuel h, P fuel h → ∃ p : Nat → Nat, p 0 = h ∧
      ∀ i, i < fuel → stepRel s (p i) (p (i + 1)) := by
  intro fuel
  induction fuel with
  | zero =>
    intro h _
    exact ⟨fun _ => h, rfl, fun i hi => absurd hi (by omega)⟩
  | succ k ih =>
    intro h hPh
    obtain ⟨c, hc, hPc⟩ := hP k h hPh
    obtain ⟨p, hp0, hpstep⟩ := ih c hPc
    refine ⟨fun i => match i with | 0 => h | j + 1 => p j, rfl, ?_⟩
    intro i hi
    match i with
    | 0 => simpa [hp0] using hc
    | j + 1 => exact hpstep j (by omega)

/-- A chain of consecutive edges yields reachability between its ends. -/
theorem steps_reach {s : List (Nat × List Nat)} (p : Nat → Nat) (a : Nat) :
    ∀ b, a ≤ b → (∀ k, a ≤ k → k < b → stepRel s (p k) (p (k + 1))) →
      ReachesC s (p a) (p b) := by
  intro b hab
  induction b, hab using Nat.le_induction with
  | base => exact fun _ => ReachesC.refl _
  | succ b hb ih =>
    intro hsteps
    exact (ih (fun k hk1 hk2 => hsteps k hk1 (by omega))).snoc
      (hsteps b hb (by omega))

/-- No edge path in an acyclic structure can be longer than the number
of table entries. -/
theorem no_long_path {s : List (Nat × List Nat)} (hA : Acyclic s) (p : Nat → Nat)
    (hp : ∀ i, i < (s.map Prod.fst).toFinset.card + 1 → stepRel s (p i) (p (i + 1))) :
    False := by
  set N := (s.map Prod.fst).toFinset.card with hN
  have hmaps : ∀ i ∈ Finset.range (N + 1), p i ∈ (s.map Prod.fst).toFinset := by
    intro i hi
    rw [Finset.mem_range] at hi
    exact List.mem_toFinset.mpr (stepRel_mem_keys (hp i (by omega)))
  have hcard : (s.map Prod.fst).toFinset.card < (Finset.range (N + 1)).card := by
    rw [Finset.card_range]
    omega
  obtain ⟨i, hi, j, hj, hij, hpij⟩ :=
    Finset.exists_ne_map_eq_of_card_lt_of_maps_to hcard hmaps
  rw [Finset.mem_range] at hi hj
  rcases Nat.lt_or_ge i j with hlt | hge
  · have hseg : ReachesC s (p (i + 1)) (p j) :=
      steps_reach p (i + 1) j (by omega) (fun k hk1 hk2 => hp k (by omega))
    rw [← hpij] at hseg
    exact hA (p i) ⟨p (i + 1), hp i (by omega), hseg⟩
  · have hlt' : j < i := by omega
    have hseg : ReachesC s (p (j + 1)) (p i) :=
      steps_reach p (j + 1) i (by omega) (fun k hk1 hk2 => hp k (by omega))
    rw [hpij] at hseg
    exact hA (p j) ⟨p (j + 1), hp j (by omega), hseg⟩

/-! ### Generic lemmas about foldChildren -/

theorem foldChildren_pres {μ : Type} (m : SceneGraph → μ)
    (f : SceneGraph → Nat → Option SceneGraph)
    (hf : ∀ g c g', f g c = some g' → m g' = m g) :
    ∀ l g g', foldChildren f g l = some g' → m g' = m g := by
  intro l
  induction l with
  | nil =>
    intro g g' h
    simp only [foldChildren, Option.some.injEq] at h
    rw [h]
  | cons c cs ih =>
    intro g g' h
    simp only [foldChildren] at h
    cases hfc : f g c with
    | none => rw [hfc] at h; exact absurd h (by simp)
    | some g1 =>
      rw [hfc] at h
      exact (ih g1 g' h).trans (hf g c g1 hfc)

theorem foldChildren_prop (P : SceneGraph → Prop)
    (f : SceneGraph → Nat → Option SceneGraph)
    (hf : ∀ g c g', f g c = some g' → P g → P g') :
    ∀ l g g', foldChildren f g l = some g' → P g → P g' := by
  intro l
  induction l with
  | nil =>
    intro g g' h hP
    simp only [foldChildren, Option.some.injEq] at h
    rw [← h]
    exact hP
  | cons c cs ih =>
    intro g g' h hP
    simp only [foldChildren] at h
    cases hfc : f g c with
    | none => rw [hfc] at h; exact absurd h (by simp)
    | some g1 =>
      rw [hfc] at h
      exact ih g1 g' h (hf g c g1 hfc hP)

theorem foldChildren_none {μ : Type} (m : SceneGraph → μ)
    (f : SceneGraph → Nat → Option SceneGraph)
    (hf : ∀ g c g', f g c = some g' → m g' = m g) :
    ∀ l g, foldChildren f g l = none →
      ∃ c ∈ l, ∃ g₂, m g₂ = m g ∧ f g₂ c = none := by
  intro l
  induction l with
  | nil => intro g h; simp [foldChildren] at h
  | cons c cs ih =>
    intro g h
    simp only [foldChildren] at h
    cases hfc : f g c with
    | none => exact ⟨c, by simp, g, rfl, hfc⟩
    | some g1 =>
      rw [hfc] at h
      obtain ⟨c', hc', g₂, hm, hfail⟩ := ih g1 h
      exact ⟨c', by simp [hc'], g₂, hm.trans (hf g c g1 hfc), hfail⟩

theorem foldChildren_each {μ : Type} (m : SceneGraph → μ)
    (f : SceneGraph → Nat → Option SceneGraph)
    (hf : ∀ g c g', f g c = some g' → m g' = m g) :
    ∀ l g g', foldChildren f g l = some g' →
      ∀ c ∈ l, ∃ g₂ g₃, m g₂ = m g ∧ f g₂ c = some g₃ := by
  intro l
  induction l with
  | nil => intro g g' _ c hc; simp at hc
  | cons c0 cs ih =>
    intro g g' h c hc
    simp only [foldChildren] at h
    cases hfc : f g c0 with
    | none => rw [hfc] at h; exact absurd h (by simp)
    | some g1 =>
      rw [hfc] at h
      rcases List.mem_cons.mp hc with rfl | hmem
      · exact ⟨g, g1, rfl, hfc⟩
      · obtain ⟨g₂, g₃, hm, hsome⟩ := ih g1 g' h c hmem
        exact ⟨g₂, g₃, hm.trans (hf g c0 g1 hfc), hsome⟩

/-! ### Lemmas about mark_transform_dirty -/

/-- The skeleton of a graph that `markDirtyF` never changes. -/
def dirtySkel (g : SceneGraph) : List (Nat × SceneNode) × Nat × Nat :=
  (g.nodes, g.root, g.next_handle)

theorem markDirty_pres_nodes :
    ∀ fuel g h g', markDirtyF fuel g h = some g' → dirtySkel g' = dirtySkel g := by
  intro fuel
  induction fuel with
  | zero => intro g h g' h'; simp [markDirtyF] at h'
  | succ fuel ih =>
    intro g h g' h'
    simp only [markDirtyF] at h'
    set g1 := if h ∈ g.dirty_transforms then g
              else { g with dirty_transforms := g.dirty_transforms ++ [h] } with hg1
    have hskel1 : dirtySkel g1 = dirtySkel g := by
      rw [hg1]
      split <;> rfl
    cases hlk : lookupNode g1 h with
    | none =>
      rw [hlk] at h'
      simp only [Option.some.injEq] at h'
      rw [← h']
      exact hskel1
    | some node =>
      rw [hlk] at h'
      exact (foldChildren_pres dirtySkel _ (fun g c g' hgc => ih g c g' hgc)
        node.children g1 g' h').trans hskel1

theorem markDirty_nodes {fuel : Nat} {g : SceneGraph} {h : Nat} {g' : SceneGraph}
    (hm : markDirtyF fuel g h = some g') : g'.nodes = g.nodes :=
  congrArg (fun p => p.1) (markDirty_pres_nodes fuel g h g' hm)

theorem markDirty_dirty_mono :
    ∀ fuel g h g', markDirtyF fuel g h = some g' →
      ∀ x, x ∈ g.dirty_transforms → x ∈ g'.dirty_transforms := by
  intro fuel
  induction fuel with
  | zero => intro g h g' h'; simp [markDirtyF] at h'
  | succ fuel ih =>
    intro g h g' h' x hx
    simp only [markDirtyF] at h'
    set g1 := if h ∈ g.dirty_transforms then g
              else { g with dirty_transforms := g.dirty_transforms ++ [h] } with hg1
    have hx1 : x ∈ g1.dirty_transforms := by
      rw [hg1]
      split
      · exact hx
      · simp [hx]
    cases hlk : lookupNode g1 h with
    | none =>
      rw [hlk] at h'
      simp only [Option.some.injEq] at h'
      rw [← h']
      exact hx1
    | some node =>
      rw [hlk] at h'
      exact foldChildren_prop (fun g => x ∈ g.dirty_transforms) _
        (fun g c g' hgc hP => ih g c g' hgc x hP) node.children g1 g' h' hx1

theorem markDirty_self_dirty :
    ∀ fuel g h g', markDirtyF fuel g h = some g' → h ∈ g'.dirty_transforms := by
  intro fuel
  induction fuel with
  | zero => intro g h g' h'; simp [markDirtyF] at h'
  | succ fuel ih =>
    intro g h g' h'
    simp only [markDirtyF] at h'
    set g1 := if h ∈ g.dirty_transforms then g
              else { g with dirty_transforms := g.dirty_transforms ++ [h] } with hg1
    have hh1 : h ∈ g1.dirty_transforms := by
      rw [hg1]
      split
      · assumption
      · simp
    cases hlk : lookupNode g1 h with
    | none =>
      rw [hlk] at h'
      simp only [Option.some.injEq] at h'
      rw [← h']
      exact hh1
    | some node =>
      rw [hlk] at h'
      exact foldChildren_prop (fun g => h ∈ g.dirty_transforms) _
        (fun g c g' hgc hP => markDirty_dirty_mono fuel g c g' hgc h hP)
        node.children g1 g' h' hh1

theorem lookupNode_congr {g1 g2 : SceneGraph} (h : g1.nodes = g2.nodes) (x : Nat) :
    lookupNode g1 x = lookupNode g2 x := by
  unfold lookupNode
  rw [h]

theorem structList_lookup_children {g : SceneGraph} {h : Nat} {node : SceneNode}
    (hlk : lookupNode g h = some node) :
    lookupA (structList g.nodes) h = some node.children := by
  rw [lookupA_structList]
  rw [show lookupA g.nodes h = lookupNode g h from rfl, hlk]
  rfl

theorem markDirty_covers_aux (fuel : Nat)
    (hcov : ∀ g h g', markDirtyF fuel g h = some g' →
      ∀ d, ReachesC (structList g.nodes) h d → d ∈ g'.dirty_transforms) :
    ∀ l g g', foldChildren (fun acc c => markDirtyF fuel acc c) g l = some g' →
      ∀ c ∈ l, ∀ d, ReachesC (structList g.nodes) c d → d ∈ g'.dirty_transforms := by
  intro l
  induction l with
  | nil => intro g g' _ c hc; simp at hc
  | cons c0 cs ih =>
    intro g g' h c hc d hd
    simp only [foldChildren] at h
    cases hfc : markDirtyF fuel g c0 with
    | none => rw [hfc] at h; exact absurd h (by simp)
    | some g1 =>
      rw [hfc] at h
      have hnodes : g1.nodes = g.nodes := markDirty_nodes hfc
      rcases List.mem_cons.mp hc with rfl | hmem
      · have hin1 : d ∈ g1.dirty_transforms := hcov g c g1 hfc d hd
        exact foldChildren_prop (fun g => d ∈ g.dirty_transforms) _
          (fun g c g' hgc hP => markDirty_dirty_mono fuel g c g' hgc d hP)
          cs g1 g' h hin1
      · exact ih g1 g' h c hmem d (by rwa [hnodes])

/-- Everything in the subtree of the marked handle ends up dirty. -/
theorem markDirty_covers :
    ∀ fuel g h g', markDirtyF fuel g h = some g' →
      ∀ d, ReachesC (structList g.nodes) h d → d ∈ g'.dirty_transforms := by
  intro fuel
  induction fuel with
  | zero => intro g h g' h'; simp [markDirtyF] at h'
  | succ fuel ih =>
    intro g h g' h' d hd
    simp only [markDirtyF] at h'
    set g1 := if h ∈ g.dirty_transforms then g
              else { g with dirty_transforms := g.dirty_transforms ++ [h] } with hg1
    have hnodes1 : g1.nodes = g.nodes := by
      rw [hg1]
      split <;> rfl
    have hh1 : h ∈ g1.dirty_transforms := by
      rw [hg1]
      split
      · assumption
      · simp
    have hlk1 : lookupNode g1 h = lookupNode g h := lookupNode_congr hnodes1 h
    cases hlk : lookupNode g1 h with
    | none =>
      rw [hlk] at h'
      simp only [Option.some.injEq] at h'
      rcases hd.cases_head with heq | ⟨c, hc, _⟩
      · rw [← heq, ← h']
        exact hh1
      · obtain ⟨cs, hcs, _⟩ := hc
        rw [lookupA_structList] at hcs
        rw [show lookupA g.nodes h = lookupNode g h from rfl] at hcs
        rw [← hlk1, hlk] at hcs
        simp at hcs
    | some node =>
      rw [hlk] at h'
      have hlkg : lookupNode g h = some node := by rw [← hlk1, hlk]
      rcases hd.cases_head with heq | ⟨c, hc, hcd⟩
      · rw [← heq]
        exact foldChildren_prop (fun g2 => h ∈ g2.dirty_transforms) _
          (fun g2 c g2' hgc hP => markDirty_dirty_mono fuel g2 c g2' hgc h hP)
          node.children g1 g' h' hh1
      · obtain ⟨cs, hcs, hcmem⟩ := hc
        rw [structList_lookup_children hlkg] at hcs
        simp only [Option.some.injEq] at hcs
        have hcmem' : c ∈ node.children := by rw [hcs]; exact hcmem
        have hd1 : ReachesC (structList g1.nodes) c d := by rwa [hnodes1]
        exact markDirty_covers_aux fuel ih node.children g1 g' h' c hcmem' d hd1

theorem markDirty_only_subtree_aux (fuel : Nat)
    (honly : ∀ g h g', markDirtyF fuel g h = some g' →
      ∀ d, d ∈ g'.dirty_transforms →
        d ∈ g.dirty_transforms ∨ ReachesC (structList g.nodes) h d) :
    ∀ l g g', foldChildren (fun acc c => markDirtyF fuel acc c) g l = some g' →
      ∀ d, d ∈ g'.dirty_transforms →
        d ∈ g.dirty_transforms ∨ ∃ c ∈ l, ReachesC (structList g.nodes) c d := by
  intro l
  induction l with
  | nil =>
    intro g g' h d hd
    simp only [foldChildren, Option.some.injEq] at h
    rw [← h] at hd
    exact Or.inl hd
  | cons c0 cs ih =>
    intro g g' h d hd
    simp only [foldChildren] at h
    cases hfc : markDirtyF fuel g c0 with
    | none => rw [hfc] at h; exact absurd h (by simp)
    | some g1 =>
      rw [hfc] at h
      have hnodes : g1.nodes = g.nodes := markDirty_nodes hfc
      rcases ih g1 g' h d hd with hin1 | ⟨c, hc, hreach⟩
      · rcases honly g c0 g1 hfc d hin1 with hing | hreach
        · exact Or.inl hing
        · exact Or.inr ⟨c0, by simp, hreach⟩
      · exact Or.inr ⟨c, by simp [hc], by rwa [hnodes] at hreach⟩

/-- Dirty marking adds only handles from the marked subtree. -/
theorem markDirty_only_subtree :
    ∀ fuel g h g', markDirtyF fuel g h = some g' →
      ∀ d, d ∈ g'.dirty_transforms →
        d ∈ g.dirty_transforms ∨ ReachesC (structList g.nodes) h d := by
  intro fuel
  induction fuel with
  | zero => intro g h g' h'; simp [markDirtyF] at h'
  | succ fuel ih =>
    intro g h g' h' d hd
    simp only [markDirtyF] at h'
    set g1 := if h ∈ g.dirty_transforms then g
              else { g with dirty_transforms := g.dirty_transforms ++ [h] } with hg1
    have hnodes1 : g1.nodes = g.nodes := by
      rw [hg1]
      split <;> rfl
    have hd1 : ∀ x, x ∈ g1.dirty_transforms → x ∈ g.dirty_transforms ∨ x = h := by
      intro x hx
      rw [hg1] at hx
      split at hx
      · exact Or.inl hx
      · rcases List.mem_append.mp hx with h1 | h1
        · exact Or.inl h1
        · simp at h1
          exact Or.inr h1
    cases hlk : lookupNode g1 h with
    | none =>
      rw [hlk] at h'
      simp only [Option.some.injEq] at h'
      rw [← h'] at hd
      rcases hd1 d hd with hin | rfl
      · exact Or.inl hin
      · exact Or.inr (ReachesC.refl d)
    | some node =>
      rw [hlk] at h'
      have hlkg : lookupNode g h = some node := by
        rw [← lookupNode_congr hnodes1 h, hlk]
      have hstep : ∀ c ∈ node.children, stepRel (structList g.nodes) h c := by
        intro c hc
        exact ⟨node.children, structList_lookup_children hlkg, hc⟩
      rcases markDirty_only_subtree_aux fuel ih node.children g1 g' h' d hd with hin1 | ⟨c, hc, hreach⟩
      · rcases hd1 d hin1 with hin | rfl
        · exact Or.inl hin
        · exact Or.inr (ReachesC.refl d)
      · rw [hnodes1] at hreach
        exact Or.inr (ReachesC.step (hstep c hc) hreach)

/-- Dirty marking never introduces duplicate dirty entries. -/
theorem markDirty_nodup :
    ∀ fuel g h g', markDirtyF fuel g h = some g' →
      g.dirty_transforms.Nodup → g'.dirty_transforms.Nodup := by
  intro fuel
  induction fuel with
  | zero => intro g h g' h'; simp [markDirtyF] at h'
  | succ fuel ih =>
    intro g h g' h' hnd
    simp only [markDirtyF] at h'
    set g1 := if h ∈ g.dirty_transforms then g
              else { g with dirty_transforms := g.dirty_transforms ++ [h] } with hg1
    have hnd1 : g1.dirty_transforms.Nodup := by
      rw [hg1]
      split
      · exact hnd
      · simpa [List.nodup_append] using ⟨hnd, by assumption⟩
    cases hlk : lookupNode g1 h with
    | none =>
      rw [hlk] at h'
      simp only [Option.some.injEq] at h'
      rw [← h']
      exact hnd1
    | some node =>
      rw [hlk] at h'
      exact foldChildren_prop (fun g => g.dirty_transforms.Nodup) _
        (fun g c g' hgc hP => ih g c g' hgc hP) node.children g1 g' h' hnd1

/-- On an absent handle, `mark_transform_dirty` still records the handle
in the dirty set (idempotently) and changes nothing else. -/
theorem markDirty_absent (fuel : Nat) (g : SceneGraph) (h : Nat) (g' : SceneGraph)
    (hm : markDirtyF fuel g h = some g') (habs : lookupNode g h = none) :
    g' = { g with dirty_transforms :=
      if h ∈ g.dirty_transforms then g.dirty_transforms else g.dirty_transforms ++ [h] } := by
  cases fuel with
  | zero => simp [markDirtyF] at hm
  | succ fuel =>
    simp only [markDirtyF] at hm
    set g1 := if h ∈ g.dirty_transforms then g
              else { g with dirty_transforms := g.dirty_transforms ++ [h] } with hg1
    have hlk : lookupNode g1 h = none := by
      rw [hg1]
      unfold lookupNode at habs ⊢
      split <;> exact habs
    rw [hlk] at hm
    simp only [Option.some.injEq] at hm
    rw [← hm, hg1]
    split
    · cases g
      simp_all
    · rfl

/-! ### Lemmas about update_node_transform -/

/-- The view of a graph preserved by `update_node_transform`: everything
except the stored world transforms. -/
def updSkel (g : SceneGraph) : List (Nat × NodeShape) × Nat × Nat × List Nat :=
  (shapeList g.nodes, g.root, g.next_handle, g.dirty_transforms)

theorem updateNode_pres :
    ∀ fuel g h W g', updateNodeF fuel g h W = some g' → updSkel g' = updSkel g := by
  intro fuel
  induction fuel with
  | zero => intro g h W g' h'; simp [updateNodeF] at h'
  | succ fuel ih =>
    intro g h W g' h'
    simp only [updateNodeF] at h'
    cases hlk : lookupNode g h with
    | none =>
      rw [hlk] at h'
      simp only [Option.some.injEq] at h'
      rw [← h']
    | some node =>
      rw [hlk] at h'
      set world := Mat4.mul W node.transform.toMatrix with hworld
      set g1 : SceneGraph := { g with nodes := (modifyA g.nodes h
        (fun n => { n with world_transform := world })) } with hg1
      have hskel1 : updSkel g1 = updSkel g := by
        rw [hg1]
        unfold updSkel
        simp only
        rw [modifyA_shapeList g.nodes h (fun n => { n with world_transform := world }) (fun n => rfl)]
      exact (foldChildren_pres updSkel _ (fun g c g' hgc => ih g c _ g' hgc)
        node.children g1 g' h').trans hskel1

theorem updateNode_shape {fuel : Nat} {g : SceneGraph} {h : Nat} {W : Mat4} {g' : SceneGraph}
    (hu : updateNodeF fuel g h W = some g') : shapeList g'.nodes = shapeList g.nodes :=
  congrArg (fun p => p.1) (updateNode_pres fuel g h W g' hu)

theorem updateNode_struct {fuel : Nat} {g : SceneGraph} {h : Nat} {W : Mat4} {g' : SceneGraph}
    (hu : updateNodeF fuel g h W = some g') : structList g'.nodes = structList g.nodes :=
  structList_of_shapeList (updateNode_shape hu)

theorem updateNode_dirty {fuel : Nat} {g : SceneGraph} {h : Nat} {W : Mat4} {g' : SceneGraph}
    (hu : updateNodeF fuel g h W = some g') : g'.dirty_transforms = g.dirty_transforms :=
  congrArg (fun p => p.2.2.2) (updateNode_pres fuel g h W g' hu)

theorem updateNode_root {fuel : Nat} {g : SceneGraph} {h : Nat} {W : Mat4} {g' : SceneGraph}
    (hu : updateNodeF fuel g h W = some g') : g'.root = g.root :=
  congrArg (fun p => p.2.1) (updateNode_pres fuel g h W g' hu)

theorem updateNode_untouched_aux (fuel : Nat) (W : Mat4) (d : Nat)
    (hIH : ∀ g h g', updateNodeF fuel g h W = some g' →
      ¬ ReachesC (structList g.nodes) h d → lookupNode g' d = lookupNode g d) :
    ∀ l g g', foldChildren (fun acc c => updateNodeF fuel acc c W) g l = some g' →
      (∀ c ∈ l, ¬ ReachesC (structList g.nodes) c d) →
      lookupNode g' d = lookupNode g d := by
  intro l
  induction l with
  | nil =>
    intro g g' h _
    simp only [foldChildren, Option.some.injEq] at h
    rw [h]
  | cons c0 cs ih =>
    intro g g' h hnr
    simp only [foldChildren] at h
    cases hfc : updateNodeF fuel g c0 W with
    | none => rw [hfc] at h; exact absurd h (by simp)
    | some g1 =>
      rw [hfc] at h
      have hst : structList g1.nodes = structList g.nodes := updateNode_struct hfc
      have h1 : lookupNode g1 d = lookupNode g d := hIH g c0 g1 hfc (hnr c0 (by simp))
      have h2 : lookupNode g' d = lookupNode g1 d := by
        refine ih g1 g' h ?_
        intro c hc
        rw [hst]
        exact hnr c (by simp [hc])
      rw [h2, h1]

/-- The traversal only writes nodes inside the subtree it starts from. -/
theorem updateNode_untouched :
    ∀ fuel g h W g', updateNodeF fuel g h W = some g' →
      ∀ d, ¬ ReachesC (structList g.nodes) h d →
        lookupNode g' d = lookupNode g d := by
  intro fuel
  induction fuel with
  | zero => intro g h W g' h'; simp [updateNodeF] at h'
  | succ fuel ih =>
    intro g h W g' h' d hnr
    simp only [updateNodeF] at h'
    cases hlk : lookupNode g h with
    | none =>
      rw [hlk] at h'
      simp only [Option.some.injEq] at h'
      rw [← h']
    | some node =>
      rw [hlk] at h'
      have hne : d ≠ h := by
        intro heq
        exact hnr (heq ▸ ReachesC.refl d)
      set world := Mat4.mul W node.transform.toMatrix with hworld
      set g1 : SceneGraph := { g with nodes := (modifyA g.nodes h
        (fun n => { n with world_transform := world })) } with hg1
      have h1 : lookupNode g1 d = lookupNode g d := by
        rw [hg1]
        unfold lookupNode
        exact lookupA_modifyA_ne g.nodes h d _ hne
      have hst1 : structList g1.nodes = structList g.nodes := by
        rw [hg1]
        exact structList_of_shapeList (modifyA_shapeList g.nodes h _ (fun n => rfl))
      have h2 : lookupNode g' d = lookupNode g1 d := by
        refine updateNode_untouched_aux fuel world d (fun g h g' hu hnr' => ih g h world g' hu d hnr')
          node.children g1 g' h' ?_
        intro c hc
        rw [hst1]
        intro hreach
        exact hnr (ReachesC.step ⟨node.children, structList_lookup_children hlk, hc⟩ hreach)
      rw [h2, h1]

/-! ### Termination and divergence of the recursive traversals -/

theorem structList_lookup_inv {g : SceneGraph} {h : Nat} {cs : List Nat}
    (hlk : lookupA (structList g.nodes) h = some cs) :
    ∃ node, lookupNode g h = some node ∧ node.children = cs := by
  rw [lookupA_structList] at hlk
  cases hg : lookupA g.nodes h with
  | none => rw [hg] at hlk; simp at hlk
  | some node =>
    rw [hg] at hlk
    simp only [Option.map_some', Option.some.injEq] at hlk
    exact ⟨node, hg, hlk⟩

theorem markDirty_fail_step {fuel : Nat} {g : SceneGraph} {h : Nat}
    (hfail : markDirtyF (fuel + 1) g h = none) :
    ∃ c, stepRel (structList g.nodes) h c ∧
      ∃ g₂, g₂.nodes = g.nodes ∧ markDirtyF fuel g₂ c = none := by
  simp only [markDirtyF] at hfail
  set g1 := if h ∈ g.dirty_transforms then g
            else { g with dirty_transforms := g.dirty_transforms ++ [h] } with hg1
  have hnodes1 : g1.nodes = g.nodes := by
    rw [hg1]
    split <;> rfl
  cases hlk : lookupNode g1 h with
  | none => rw [hlk] at hfail; simp at hfail
  | some node =>
    rw [hlk] at hfail
    obtain ⟨c, hc, g₂, hskel, hf⟩ :=
      foldChildren_none dirtySkel _ (fun g c g' hgc => markDirty_pres_nodes fuel g c g' hgc)
        node.children g1 hfail
    have hlkg : lookupNode g h = some node := by
      rw [← lookupNode_congr hnodes1 h, hlk]
    refine ⟨c, ⟨node.children, structList_lookup_children hlkg, hc⟩, g₂, ?_, hf⟩
    have : g₂.nodes = g1.nodes := congrArg (fun p => p.1) hskel
    rw [this, hnodes1]

/-- A marked node that reaches a cycle makes the recursive dirty-marking
run forever: it completes within no fuel bound. -/
theorem markDirty_diverges {s : List (Nat × List Nat)} {y : Nat}
    (hcyc : ProperReach s y y) :
    ∀ fuel x g, ReachesC s x y → structList g.nodes = s →
      markDirtyF fuel g x = none := by
  intro fuel
  induction fuel with
  | zero => intro x g _ _; simp [markDirtyF]
  | succ fuel ih =>
    intro x g hxy hst
    have hsucc : ∃ c, stepRel s x c ∧ ReachesC s c y := by
      rcases hxy.cases_head with heq | ⟨b, hb, hby⟩
      · subst heq
        obtain ⟨z, hz, hzy⟩ := hcyc
        exact ⟨z, hz, hzy⟩
      · exact ⟨b, hb, hby⟩
    obtain ⟨c, hstep, hcy⟩ := hsucc
    obtain ⟨cs, hcs, hcmem⟩ := hstep
    rw [← hst] at hcs
    obtain ⟨node, hlkg, hchild⟩ := structList_lookup_inv hcs
    cases hres : markDirtyF (fuel + 1) g x with
    | none => rfl
    | some g'' =>
      exfalso
      simp only [markDirtyF] at hres
      set g1 := if x ∈ g.dirty_transforms then g
                else { g with dirty_transforms := g.dirty_transforms ++ [x] } with hg1
      have hnodes1 : g1.nodes = g.nodes := by
        rw [hg1]
        split <;> rfl
      have hlk1 : lookupNode g1 x = some node := by
        rw [lookupNode_congr hnodes1 x, hlkg]
      rw [hlk1] at hres
      obtain ⟨g₂, g₃, hskel, hsome⟩ :=
        foldChildren_each dirtySkel _ (fun g c g' hgc => markDirty_pres_nodes fuel g c g' hgc)
          node.children g1 g'' hres c (by rw [hchild]; exact hcmem)
      have hst₂ : structList g₂.nodes = s := by
        have : g₂.nodes = g1.nodes := congrArg (fun p => p.1) hskel
        rw [this, hnodes1, hst]
      rw [ih c g₂ hcy hst₂] at hsome
      exact Option.noConfusion hsome

theorem updateNode_fail_step {fuel : Nat} {g : SceneGraph} {h : Nat} {W : Mat4}
    (hfail : updateNodeF (fuel + 1) g h W = none) :
    ∃ c, stepRel (structList g.nodes) h c ∧
      ∃ g₂ W₂, structList g₂.nodes = structList g.nodes ∧
        updateNodeF fuel g₂ c W₂ = none := by
  simp only [updateNodeF] at hfail
  cases hlk : lookupNode g h with
  | none => rw [hlk] at hfail; simp at hfail
  | some node =>
    rw [hlk] at hfail
    set world := Mat4.mul W node.transform.toMatrix with hworld
    set g1 : SceneGraph := { g with nodes := (modifyA g.nodes h
      (fun n => { n with world_transform := world })) } with hg1
    have hst1 : structList g1.nodes = structList g.nodes := by
      rw [hg1]
      exact structList_of_shapeList (modifyA_shapeList g.nodes h
        (fun n => { n with world_transform := world }) (fun n => rfl))
    obtain ⟨c, hc, g₂, hskel, hf⟩ :=
      foldChildren_none updSkel _ (fun g c g' hgc => updateNode_pres fuel g c world g' hgc)
        node.children g1 hfail
    refine ⟨c, ⟨node.children, structList_lookup_children hlk, hc⟩, g₂, world, ?_, hf⟩
    have : shapeList g₂.nodes = shapeList g1.nodes := congrArg (fun p => p.1) hskel
    rw [structList_of_shapeList this, hst1]

/-- A root that reaches a cycle makes the recompute traversal run
forever. -/
theorem updateNode_diverges {s : List (Nat × List Nat)} {y : Nat}
    (hcyc : ProperReach s y y) :
    ∀ fuel x g W, ReachesC s x y → structList g.nodes = s →
      updateNodeF fuel g x W = none := by
  intro fuel
  induction fuel with
  | zero => intro x g W _ _; simp [updateNodeF]
  | succ fuel ih =>
    intro x g W hxy hst
    have hsucc : ∃ c, stepRel s x c ∧ ReachesC s c y := by
      rcases hxy.cases_head with heq | ⟨b, hb, hby⟩
      · subst heq
        obtain ⟨z, hz, hzy⟩ := hcyc
        exact ⟨z, hz, hzy⟩
      · exact ⟨b, hb, hby⟩
    obtain ⟨c, hstep, hcy⟩ := hsucc
    obtain ⟨cs, hcs, hcmem⟩ := hstep
    rw [← hst] at hcs
    obtain ⟨node, hlkg, hchild⟩ := structList_lookup_inv hcs
    cases hres : updateNodeF (fuel + 1) g x W with
    | none => rfl
    | some g'' =>
      exfalso
      simp only [updateNodeF] at hres
      rw [hlkg] at hres
      set world := Mat4.mul W node.transform.toMatrix with hworld
      set g1 : SceneGraph := { g with nodes := (modifyA g.nodes x
        (fun n => { n with world_transform := world })) } with hg1
      have hst1 : structList g1.nodes = structList g.nodes := by
        rw [hg1]
        exact structList_of_shapeList (modifyA_shapeList g.nodes x
          (fun n => { n with world_transform := world }) (fun n => rfl))
      obtain ⟨g₂, g₃, hskel, hsome⟩ :=
        foldChildren_each updSkel _ (fun g c g' hgc => updateNode_pres fuel g c world g' hgc)
          node.children g1 g'' hres c (by rw [hchild]; exact hcmem)
      have hst₂ : structList g₂.nodes = s := by
        have : shapeList g₂.nodes = shapeList g1.nodes := congrArg (fun p => p.1) hskel
        rw [structList_of_shapeList this, hst1, hst]
      rw [ih c g₂ world hcy hst₂] at hsome
      exact Option.noConfusion hsome

/-- With an acyclic children structure, `mark_transform_dirty` always
terminates: fuel one more than the number of table entries suffices. -/
theorem markDirty_terminates (g : SceneGraph) (h : Nat)
    (hA : Acyclic (structList g.nodes)) :
    ∃ fuel, (markDirtyF fuel g h).isSome := by
  set s := structList g.nodes with hs
  set N := (s.map Prod.fst).toFinset.card with hN
  refine ⟨N + 1, ?_⟩
  cases hres : markDirtyF (N + 1) g h with
  | some g' => rfl
  | none =>
    exfalso
    have hP : ∀ fuel x, (∃ g₂, structList g₂.nodes = s ∧ markDirtyF (fuel + 1) g₂ x = none) →
        ∃ c, stepRel s x c ∧ ∃ g₂, structList g₂.nodes = s ∧ markDirtyF fuel g₂ c = none := by
      intro fuel x ⟨g₂, hst₂, hfail⟩
      obtain ⟨c, hstep, g₃, hnodes₃, hf₃⟩ := markDirty_fail_step hfail
      rw [hst₂] at hstep
      refine ⟨c, hstep, g₃, ?_, hf₃⟩
      unfold structList at hst₂ ⊢
      rw [hnodes₃, hst₂]
    obtain ⟨p, hp0, hpstep⟩ :=
      fails_path (fun fuel x => ∃ g₂, structList g₂.nodes = s ∧ markDirtyF fuel g₂ x = none)
        hP (N + 1) h ⟨g, rfl, hres⟩
    exact no_long_path hA p (fun i hi => hpstep i hi)

/-- With an acyclic children structure, the recompute traversal always
terminates. -/
theorem updateNode_terminates (g : SceneGraph) (h : Nat) (W : Mat4)
    (hA : Acyclic (structList g.nodes)) :
    ∃ fuel, (updateNodeF fuel g h W).isSome := by
  set s := structList g.nodes with hs
  set N := (s.map Prod.fst).toFinset.card with hN
  refine ⟨N + 1, ?_⟩
  cases hres : updateNodeF (N + 1) g h W with
  | some g' => rfl
  | none =>
    exfalso
    have hP : ∀ fuel x,
        (∃ g₂ W₂, structList g₂.nodes = s ∧ updateNodeF (fuel + 1) g₂ x W₂ = none) →
        ∃ c, stepRel s x c ∧
          ∃ g₂ W₂, structList g₂.nodes = s ∧ updateNodeF fuel g₂ c W₂ = none := by
      intro fuel x ⟨g₂, W₂, hst₂, hfail⟩
      obtain ⟨c, hstep, g₃, W₃, hst₃, hf₃⟩ := updateNode_fail_step hfail
      rw [hst₂] at hstep
      exact ⟨c, hstep, g₃, W₃, hst₃.trans hst₂, hf₃⟩
    obtain ⟨p, hp0, hpstep⟩ :=
      fails_path (fun fuel x => ∃ g₂ W₂, structList g₂.nodes = s ∧ updateNodeF fuel g₂ x W₂ = none)
        hP (N + 1) h ⟨g, W, rfl, hres⟩
    exact no_long_path hA p (fun i hi => hpstep i hi)

/-- Acyclicity makes `update_transforms` terminate. -/
theorem updateTransforms_terminates (g : SceneGraph)
    (hA : Acyclic (structList g.nodes)) :
    ∃ fuel, (update_transformsF fuel g).isSome := by
  by_cases hd : g.dirty_transforms = []
  · exact ⟨0, by simp [update_transformsF, hd]⟩
  · obtain ⟨fuel, hfuel⟩ := updateNode_terminates g g.root mat4Id hA
    refine ⟨fuel, ?_⟩
    cases hres : updateNodeF fuel g g.root mat4Id with
    | none => rw [hres] at hfuel; simp at hfuel
    | some g' => simp [update_transformsF, hd, hres]

/-! ### Well-formedness predicates on the node table -/

/-- Parent/children consistency: anything listed as a child of a present
node exists and points back to that parent (spec §3: `child ∈
parent.children ⇔ child.parent == parent`, in the direction the proofs
need). -/
def Consistent (g : SceneGraph) : Prop :=
  ∀ p np, lookupNode g p = some np → ∀ c ∈ np.children,
    ∃ nc, lookupNode g c = some nc ∧ nc.parent = some p

/-- Every children list is duplicate-free (spec §3: ordered list, no
duplicates). -/
def ChildrenNodup (g : SceneGraph) : Prop :=
  ∀ p np, lookupNode g p = some np → np.children.Nodup

/-- Executable consistency check, for concrete witnesses. -/
def consistentB (g : SceneGraph) : Bool :=
  g.nodes.all (fun p => p.2.children.all (fun c =>
    match lookupNode g c with
    | some nc => decide (nc.parent = some p.1)
    | none => false))

theorem consistent_of_consistentB {g : SceneGraph} (hB : consistentB g = true) :
    Consistent g := by
  intro p np hlk c hc
  have hmem : (p, np) ∈ g.nodes := lookupA_mem hlk
  have hall := (List.all_eq_true.mp hB) (p, np) hmem
  have hcall := (List.all_eq_true.mp hall) c hc
  cases hnc : lookupNode g c with
  | none => rw [hnc] at hcall; simp at hcall
  | some nc =>
    rw [hnc] at hcall
    simp only [decide_eq_true_eq] at hcall
    exact ⟨nc, rfl, hcall⟩

/-- Executable duplicate-freedom check, for concrete witnesses. -/
def childrenNodupB (g : SceneGraph) : Bool :=
  g.nodes.all (fun p => decide p.2.children.Nodup)

theorem childrenNodup_of_childrenNodupB {g : SceneGraph} (hB : childrenNodupB g = true) :
    ChildrenNodup g := by
  intro p np hlk
  have hmem : (p, np) ∈ g.nodes := lookupA_mem hlk
  have := (List.all_eq_true.mp hB) (p, np) hmem
  simpa using this

/-- Consistency forces in-degree at most one on the children edges. -/
theorem uniquePred_of_consistent {g : SceneGraph} (hC : Consistent g) :
    UniquePred (structList g.nodes) := by
  intro a a' b hab hab'
  obtain ⟨cs, hcs, hb⟩ := hab
  obtain ⟨cs', hcs', hb'⟩ := hab'
  obtain ⟨na, hna, hchild⟩ := structList_lookup_inv hcs
  obtain ⟨na', hna', hchild'⟩ := structList_lookup_inv hcs'
  obtain ⟨nb, hnb, hpar⟩ := hC a na hna b (by rw [hchild]; exact hb)
  obtain ⟨nb', hnb', hpar'⟩ := hC a' na' hna' b (by rw [hchild']; exact hb')
  rw [hnb] at hnb'
  cases hnb'
  rw [hpar] at hpar'
  exact Option.some.inj hpar'

/-- First mutation of a successful attach: remove the child from its
previous parent's children list, if it has one. -/
def detachOld (g : SceneGraph) (child : Nat) : SceneGraph :=
  match (lookupNode g child).bind (fun n => n.parent) with
  | some old_parent =>
      { g with nodes := (modifyA g.nodes old_parent
          (fun n => { n with children := n.children.filter (fun h => h ≠ child) })) }
  | none => g

/-- Second mutation of a successful attach: set the child's parent. -/
def setParentNode (g : SceneGraph) (child parent : Nat) : SceneGraph :=
  { g with nodes := modifyA g.nodes child (fun n => { n with parent := some parent }) }

/-- Third mutation of a successful attach: append the child to the new
parent's children list. -/
def appendChild (g : SceneGraph) (child parent : Nat) : SceneGraph :=
  { g with nodes := modifyA g.nodes parent (fun n => { n with children := n.children ++ [child] }) }

/-- The edge mutation performed by a successful `attach_to_parent`
before the dirty marking. -/
def attachEdges (g : SceneGraph) (child parent : Nat) : SceneGraph :=
  appendChild (setParentNode (detachOld g child) child parent) child parent

theorem attach_err (fuel : Nat) (g : SceneGraph) (child parent : Nat)
    (h : (containsNode g child && containsNode g parent) = false) :
    attach_to_parentF fuel g child parent = some (g, Except.error "Invalid node handle...") := by
  unfold attach_to_parentF
  rw [if_pos]
  rcases Bool.and_eq_false_iff.mp h with h1 | h1 <;> simp [h1]

theorem attach_unfold (fuel : Nat) (g : SceneGraph) (child parent : Nat)
    (hc : containsNode g child = true) (hp : containsNode g parent = true) :
    attach_to_parentF fuel g child parent =
      (markDirtyF fuel (attachEdges g child parent) child).map
        (fun g4 => (g4, Except.ok ())) := by
  unfold attach_to_parentF
  rw [if_neg (by simp [hc, hp])]
  rfl

theorem modifyA_absent {α : Type} (l : List (Nat × α)) (h : Nat) (f : α → α)
    (habs : lookupA l h = none) : modifyA l h f = l := by
  induction l with
  | nil => simp [modifyA]
  | cons q rest ih =>
    cases q with
    | mk k w =>
      by_cases hk : k = h
      · rw [lookupA, if_pos hk] at habs
        exact absurd habs (by simp)
      · rw [lookupA, if_neg hk] at habs
        simp [modifyA, hk, ih habs]

theorem lookupNode_modify_self (g : SceneGraph) (h : Nat) (f : SceneNode → SceneNode) :
    lookupNode { g with nodes := modifyA g.nodes h f } h = (lookupNode g h).map f :=
  lookupA_modifyA_self g.nodes h f

theorem lookupNode_modify_ne (g : SceneGraph) (h d : Nat) (f : SceneNode → SceneNode)
    (hne : d ≠ h) :
    lookupNode { g with nodes := modifyA g.nodes h f } d = lookupNode g d :=
  lookupA_modifyA_ne g.nodes h d f hne

theorem SceneNode.set_parent_eq (n : SceneNode) (v : Option Nat) (hv : n.parent = v) :
    { n with parent := v } = n := by
  cases n
  simp_all

theorem setParentNode_lookup_self (g : SceneGraph) (c p : Nat) :
    lookupNode (setParentNode g c p) c =
      (lookupNode g c).map (fun n => { n with parent := some p }) :=
  lookupA_modifyA_self g.nodes c _

theorem setParentNode_lookup_ne (g : SceneGraph) (c p d : Nat) (hne : d ≠ c) :
    lookupNode (setParentNode g c p) d = lookupNode g d :=
  lookupA_modifyA_ne g.nodes c d _ hne

theorem appendChild_lookup_self (g : SceneGraph) (c p : Nat) :
    lookupNode (appendChild g c p) p =
      (lookupNode g p).map (fun n => { n with children := n.children ++ [c] }) :=
  lookupA_modifyA_self g.nodes p _

theorem appendChild_lookup_ne (g : SceneGraph) (c p d : Nat) (hne : d ≠ p) :
    lookupNode (appendChild g c p) d = lookupNode g d :=
  lookupA_modifyA_ne g.nodes p d _ hne

theorem detachOld_none (g : SceneGraph) (child : Nat)
    (hop : (lookupNode g child).bind (fun n => n.parent) = none) :
    detachOld g child = g := by
  unfold detachOld
  rw [hop]

theorem detachOld_some (g : SceneGraph) (child op : Nat)
    (hop : (lookupNode g child).bind (fun n => n.parent) = some op) :
    detachOld g child = { g with nodes := (modifyA g.nodes op
      (fun n => { n with children := n.children.filter (fun h => h ≠ child) })) } := by
  unfold detachOld
  rw [hop]

theorem detachOld_lookup_op (g : SceneGraph) (child op : Nat)
    (hop : (lookupNode g child).bind (fun n => n.parent) = some op) :
    lookupNode (detachOld g child) op = (lookupNode g op).map
      (fun n => { n with children := n.children.filter (fun h => h ≠ child) }) := by
  rw [detachOld_some g child op hop]
  exact lookupA_modifyA_self g.nodes op _

theorem detachOld_lookup_ne (g : SceneGraph) (child op d : Nat)
    (hop : (lookupNode g child).bind (fun n => n.parent) = some op) (hne : d ≠ op) :
    lookupNode (detachOld g child) d = lookupNode g d := by
  rw [detachOld_some g child op hop]
  exact lookupA_modifyA_ne g.nodes op d _ hne

/-- After the edge mutation of a successful attach, the child's parent
pointer is the new parent. -/
theorem attachEdges_parent (g : SceneGraph) (c p : Nat) (nc : SceneNode)
    (hc : lookupNode g c = some nc) :
    ∃ n, lookupNode (attachEdges g c p) c = some n ∧ n.parent = some p := by
  obtain ⟨nc1, hnc1⟩ : ∃ nc1, lookupNode (detachOld g c) c = some nc1 := by
    cases hop : (lookupNode g c).bind (fun n => n.parent) with
    | none => exact ⟨nc, by rw [detachOld_none g c hop]; exact hc⟩
    | some op =>
      by_cases hco : c = op
      · subst hco
        rw [detachOld_lookup_op g c c hop, hc]
        exact ⟨_, rfl⟩
      · rw [detachOld_lookup_ne g c op c hop hco]
        exact ⟨nc, hc⟩
  have h2 : lookupNode (setParentNode (detachOld g c) c p) c =
      some { nc1 with parent := some p } := by
    rw [setParentNode_lookup_self, hnc1]
    rfl
  unfold attachEdges
  by_cases hcp : c = p
  · subst hcp
    rw [appendChild_lookup_self, h2]
    exact ⟨_, rfl, rfl⟩
  · rw [appendChild_lookup_ne _ _ _ _ hcp, h2]
    exact ⟨_, rfl, rfl⟩

theorem attachEdges_skel (g : SceneGraph) (c p : Nat) :
    (attachEdges g c p).root = g.root ∧ (attachEdges g c p).next_handle = g.next_handle ∧
      (attachEdges g c p).dirty_transforms = g.dirty_transforms := by
  unfold attachEdges appendChild setParentNode
  cases hop : (lookupNode g c).bind (fun n => n.parent) with
  | none => rw [detachOld_none g c hop]; exact ⟨rfl, rfl, rfl⟩
  | some op => rw [detachOld_some g c op hop]; exact ⟨rfl, rfl, rfl⟩

/-- After the edge mutation of a successful attach, the child occurs
exactly once in the new parent's children list. -/
theorem attachEdges_count (g : SceneGraph) (c p : Nat) (nc np : SceneNode)
    (hC : Consistent g) (hc : lookupNode g c = some nc) (hp : lookupNode g p = some np) :
    ∃ n, lookupNode (attachEdges g c p) p = some n ∧ n.children.count c = 1 := by
  obtain ⟨np1, hnp1, hcnt1⟩ : ∃ np1, lookupNode (detachOld g c) p = some np1 ∧
      np1.children.count c = 0 := by
    cases hop : (lookupNode g c).bind (fun n => n.parent) with
    | none =>
      refine ⟨np, by rw [detachOld_none g c hop]; exact hp, List.count_eq_zero.mpr ?_⟩
      intro hmem
      obtain ⟨nc', hnc', hpar'⟩ := hC p np hp c hmem
      rw [hc] at hnc'
      cases hnc'
      rw [hc, Option.some_bind, hpar'] at hop
      exact Option.noConfusion hop
    | some op =>
      by_cases hpo : p = op
      · subst hpo
        refine ⟨_, by rw [detachOld_lookup_op g c p hop, hp]; rfl, ?_⟩
        simp only [List.count_eq_zero]
        intro hmem
        have := (List.mem_filter.mp hmem).2
        simp at this
      · refine ⟨np, by rw [detachOld_lookup_ne g c op p hop hpo]; exact hp,
          List.count_eq_zero.mpr ?_⟩
        intro hmem
        obtain ⟨nc', hnc', hpar'⟩ := hC p np hp c hmem
        rw [hc] at hnc'
        cases hnc'
        rw [hc, Option.some_bind, hpar'] at hop
        exact hpo (Option.some.inj hop)
  obtain ⟨np2, hnp2, hch2⟩ : ∃ np2, lookupNode (setParentNode (detachOld g c) c p) p =
      some np2 ∧ np2.children = np1.children := by
    by_cases hpc : p = c
    · subst hpc
      rw [setParentNode_lookup_self, hnp1]
      exact ⟨_, rfl, rfl⟩
    · rw [setParentNode_lookup_ne _ _ _ _ hpc, hnp1]
      exact ⟨np1, rfl, rfl⟩
  refine ⟨_, by unfold attachEdges; rw [appendChild_lookup_self, hnp2]; rfl, ?_⟩
  simp [List.count_append, hch2, hcnt1]

/-- After the edge mutation, the child no longer occurs in the previous
parent's children list (when that parent is a different node). -/
theorem attachEdges_oldparent (g : SceneGraph) (c p op : Nat) (nc : SceneNode)
    (hc : lookupNode g c = some nc) (hpar : nc.parent = some op) (hne : op ≠ p) :
    ∀ n, lookupNode (attachEdges g c p) op = some n → c ∉ n.children := by
  intro n hlk hmem
  have hop : (lookupNode g c).bind (fun n => n.parent) = some op := by
    rw [hc, Option.some_bind, hpar]
  unfold attachEdges at hlk
  rw [appendChild_lookup_ne _ _ _ _ hne] at hlk
  have hdet : lookupNode (detachOld g c) op = (lookupNode g op).map
      (fun n => { n with children := n.children.filter (fun h => h ≠ c) }) :=
    detachOld_lookup_op g c op hop
  have hchn : ∃ nop : SceneNode, n.children = nop.children.filter (fun h => h ≠ c) := by
    by_cases hoc : op = c
    · rw [hoc] at hlk
      rw [setParentNode_lookup_self] at hlk
      rw [hoc] at hdet
      rw [hdet, hc] at hlk
      simp only [Option.map_some', Option.some.injEq] at hlk
      exact ⟨nc, by rw [← hlk]⟩
    · rw [setParentNode_lookup_ne _ _ _ _ hoc, hdet] at hlk
      cases hg : lookupNode g op with
      | none => rw [hg] at hlk; exact Option.noConfusion hlk
      | some nop =>
        rw [hg] at hlk
        simp only [Option.map_some', Option.some.injEq] at hlk
        exact ⟨nop, by rw [← hlk]⟩
  obtain ⟨nop, hn⟩ := hchn
  rw [hn] at hmem
  have := (List.mem_filter.mp hmem).2
  simp at this

/-- Edge mutation of a reattach to the current parent: the only node
table change is that the child moves to the end of the parent's
children list. -/
theorem attachEdges_same_parent (g : SceneGraph) (c p : Nat) (nc np : SceneNode)
    (hc : lookupNode g c = some nc) (hpar : nc.parent = some p)
    (hp : lookupNode g p = some np) :
    (∀ d, d ≠ p → lookupNode (attachEdges g c p) d = lookupNode g d) ∧
    lookupNode (attachEdges g c p) p =
      some { np with children := np.children.filter (fun h => h ≠ c) ++ [c] } := by
  have hop : (lookupNode g c).bind (fun n => n.parent) = some p := by
    rw [hc, Option.some_bind, hpar]
  have hdetp : lookupNode (detachOld g c) p =
      some { np with children := np.children.filter (fun h => h ≠ c) } := by
    rw [detachOld_lookup_op g c p hop, hp]
    rfl
  constructor
  · intro d hdp
    unfold attachEdges
    rw [appendChild_lookup_ne _ _ _ _ hdp]
    by_cases hdc : d = c
    · subst hdc
      have hcp : d ≠ p := hdp
      rw [setParentNode_lookup_self, detachOld_lookup_ne g d p d hop hcp, hc]
      simp only [Option.map_some', Option.some.injEq]
      exact SceneNode.set_parent_eq nc (some p) hpar
    · rw [setParentNode_lookup_ne _ _ _ _ hdc]
      exact detachOld_lookup_ne g c p d hop hdp
  · unfold attachEdges
    rw [appendChild_lookup_self]
    by_cases hpc : p = c
    · subst hpc
      rw [hc] at hp
      cases hp
      rw [setParentNode_lookup_self, hdetp]
      simp only [Option.map_some', Option.some.injEq]
      rw [hpar]
    · rw [setParentNode_lookup_ne _ _ _ _ hpc, hdetp]
      rfl

/-- C2: `attach_to_parent` returns the invalid-handle error exactly when
the child or the parent handle is absent, leaving the graph unchanged in
that case; on success the child is removed from a different previous
parent's children list, its parent pointer is set, it occurs exactly
once in the new parent's children list, and its entire subtree is
dirty-marked. -/
theorem C2_attach_to_parent (fuel : Nat) (g : SceneGraph) (child parent : Nat)
    (hC : Consistent g) :
    ((containsNode g child && containsNode g parent) = false →
      attach_to_parentF fuel g child parent =
        some (g, Except.error "Invalid node handle...")) ∧
    (∀ g' e, attach_to_parentF fuel g child parent = some (g', Except.error e) →
      (containsNode g child && containsNode g parent) = false ∧ g' = g) ∧
    (∀ g', attach_to_parentF fuel g child parent = some (g', Except.ok ()) →
      (∃ n, lookupNode g' child = some n ∧ n.parent = some parent) ∧
      (∃ n, lookupNode g' parent = some n ∧ n.children.count child = 1) ∧
      (∀ nc op, lookupNode g child = some nc → nc.parent = some op → op ≠ parent →
        ∀ n, lookupNode g' op = some n → child ∉ n.children) ∧
      (∀ d, ReachesC (structList g'.nodes) child d → d ∈ g'.dirty_transforms)) := by
  refine ⟨attach_err fuel g child parent, ?_, ?_⟩
  · intro g' e herr
    cases hcond : (containsNode g child && containsNode g parent) with
    | false =>
      rw [attach_err fuel g child parent hcond] at herr
      simp only [Option.some.injEq, Prod.mk.injEq] at herr
      exact ⟨rfl, herr.1.symm⟩
    | true =>
      rw [attach_unfold fuel g child parent
        (Bool.and_eq_true_iff.mp hcond).1 (Bool.and_eq_true_iff.mp hcond).2] at herr
      cases hmd : markDirtyF fuel (attachEdges g child parent) child with
      | none => rw [hmd] at herr; exact Option.noConfusion herr
      | some g4 =>
        rw [hmd] at herr
        simp only [Option.map_some', Option.some.injEq, Prod.mk.injEq] at herr
        exact absurd herr.2 (by simp)
  · intro g' hok
    cases hcond : (containsNode g child && containsNode g parent) with
    | false =>
      rw [attach_err fuel g child parent hcond] at hok
      simp only [Option.some.injEq, Prod.mk.injEq] at hok
      exact absurd hok.2 (by simp)
    | true =>
      have hcc := (Bool.and_eq_true_iff.mp hcond).1
      have hcp := (Bool.and_eq_true_iff.mp hcond).2
      rw [attach_unfold fuel g child parent hcc hcp] at hok
      cases hmd : markDirtyF fuel (attachEdges g child parent) child with
      | none => rw [hmd] at hok; exact Option.noConfusion hok
      | some g4 =>
        rw [hmd] at hok
        simp only [Option.map_some', Option.some.injEq, Prod.mk.injEq] at hok
        obtain ⟨rfl, -⟩ := hok
        obtain ⟨nc, hnc⟩ := Option.isSome_iff_exists.mp hcc
        obtain ⟨np, hnp⟩ := Option.isSome_iff_exists.mp hcp
        have hnodes : g4.nodes = (attachEdges g child parent).nodes := markDirty_nodes hmd
        refine ⟨?_, ?_, ?_, ?_⟩
        · obtain ⟨n, hn, hnpar⟩ := attachEdges_parent g child parent nc hnc
          exact ⟨n, by rw [lookupNode_congr hnodes child, hn], hnpar⟩
        · obtain ⟨n, hn, hcnt⟩ := attachEdges_count g child parent nc np hC hnc hnp
          exact ⟨n, by rw [lookupNode_congr hnodes parent, hn], hcnt⟩
        · intro nc' op hnc' hpar' hne n hn
          exact attachEdges_oldparent g child parent op nc' hnc' hpar' hne n
            (by rw [← lookupNode_congr hnodes op, hn])
        · intro d hd
          refine markDirty_covers fuel (attachEdges g child parent) child g4 hmd d ?_
          have : structList g4.nodes = structList (attachEdges g child parent).nodes := by
            rw [hnodes]
          rwa [this] at hd

/-- C5 (amended): reattaching a node to its current parent dirty-marks
its subtree and moves it to the end of that parent's children list
(removing it from its previous position); every other node, the root and
the allocation counter are unchanged.  The children list is not left
exactly as it was unless the child already sat at the end. -/
theorem C5_reattach_same_parent (fuel : Nat) (g : SceneGraph) (c p : Nat)
    (nc np : SceneNode) (g' : SceneGraph) (r : Except String Unit)
    (hc : lookupNode g c = some nc) (hpar : nc.parent = some p)
    (hp : lookupNode g p = some np)
    (hat : attach_to_parentF fuel g c p = some (g', r)) :
    r = Except.ok () ∧
    g'.root = g.root ∧ g'.next_handle = g.next_handle ∧
    (∀ d, d ≠ p → lookupNode g' d = lookupNode g d) ∧
    lookupNode g' p =
      some { np with children := np.children.filter (fun h => h ≠ c) ++ [c] } ∧
    (∀ x ∈ g.dirty_transforms, x ∈ g'.dirty_transforms) ∧
    (∀ d, ReachesC (structList g'.nodes) c d → d ∈ g'.dirty_transforms) ∧
    (∀ d, d ∈ g'.dirty_transforms →
      d ∈ g.dirty_transforms ∨ ReachesC (structList g'.nodes) c d) := by
  have hcc : containsNode g c = true := by simp [containsNode, hc]
  have hcp : containsNode g p = true := by simp [containsNode, hp]
  rw [attach_unfold fuel g c p hcc hcp] at hat
  cases hmd : markDirtyF fuel (attachEdges g c p) c with
  | none => rw [hmd] at hat; exact Option.noConfusion hat
  | some g4 =>
    rw [hmd] at hat
    simp only [Option.map_some', Option.some.injEq, Prod.mk.injEq] at hat
    obtain ⟨hg4, hr⟩ := hat
    cases hg4
    cases hr
    have hnodes : g'.nodes = (attachEdges g c p).nodes := markDirty_nodes hmd
    have hskel := attachEdges_skel g c p
    have hpres := markDirty_pres_nodes fuel (attachEdges g c p) c g' hmd
    have hroot : g'.root = g.root := by
      have h0 : (dirtySkel g').2.1 = (dirtySkel (attachEdges g c p)).2.1 :=
        congrArg (fun q => q.2.1) hpres
      simp only [dirtySkel] at h0
      rw [h0, hskel.1]
    have hnext : g'.next_handle = g.next_handle := by
      have h0 : (dirtySkel g').2.2 = (dirtySkel (attachEdges g c p)).2.2 :=
        congrArg (fun q => q.2.2) hpres
      simp only [dirtySkel] at h0
      rw [h0, hskel.2.1]
    have hsp := attachEdges_same_parent g c p nc np hc hpar hp
    have hstruct : structList g'.nodes = structList (attachEdges g c p).nodes := by
      rw [hnodes]
    refine ⟨rfl, hroot, hnext, ?_, ?_, ?_, ?_, ?_⟩
    · intro d hdp
      rw [lookupNode_congr hnodes d, hsp.1 d hdp]
    · rw [lookupNode_congr hnodes p, hsp.2]
    · intro x hx
      refine markDirty_dirty_mono fuel _ c g' hmd x ?_
      rw [hskel.2.2]
      exact hx
    · intro d hd
      refine markDirty_covers fuel _ c g' hmd d ?_
      rwa [hstruct] at hd
    · intro d hd
      rcases markDirty_only_subtree fuel _ c g' hmd d hd with hin | hreach
      · rw [hskel.2.2] at hin
        exact Or.inl hin
      · rw [← hstruct] at hreach
        exact Or.inr hreach

/-- C4 (amended): `mark_transform_dirty` never changes the node table,
the root or the allocation counter; it inserts the handle into the dirty
set idempotently — including for an absent handle, which is therefore
not a complete no-op — recursively marks the whole subtree of a present
handle, and never introduces duplicate dirty entries. -/
theorem C4_mark_transform_dirty (fuel : Nat) (g : SceneGraph) (h : Nat) (g' : SceneGraph)
    (hm : markDirtyF fuel g h = some g') :
    g'.nodes = g.nodes ∧ g'.root = g.root ∧ g'.next_handle = g.next_handle ∧
    h ∈ g'.dirty_transforms ∧
    (∀ x ∈ g.dirty_transforms, x ∈ g'.dirty_transforms) ∧
    (g.dirty_transforms.Nodup → g'.dirty_transforms.Nodup) ∧
    (∀ d, ReachesC (structList g.nodes) h d → d ∈ g'.dirty_transforms) ∧
    (lookupNode g h = none → g' = { g with dirty_transforms :=
      if h ∈ g.dirty_transforms then g.dirty_transforms
      else g.dirty_transforms ++ [h] }) := by
  have hpres := markDirty_pres_nodes fuel g h g' hm
  refine ⟨congrArg (fun q => q.1) hpres,
    congrArg (fun q => q.2.1) hpres,
    congrArg (fun q => q.2.2) hpres,
    markDirty_self_dirty fuel g h g' hm,
    fun x hx => markDirty_dirty_mono fuel g h g' hm x hx,
    fun hnd => markDirty_nodup fuel g h g' hm hnd,
    fun d hd => markDirty_covers fuel g h g' hm d hd,
    fun habs => markDirty_absent fuel g h g' hm habs⟩

/-- C8: one `update_transforms` call leaves the dirty set empty, and a
second call with no intervening mutation returns the graph unchanged —
in particular every node's world transform is identical after each
call. -/
theorem C8_update_idempotent (fuel : Nat) (g g1 : SceneGraph)
    (h1 : update_transformsF fuel g = some g1) :
    g1.dirty_transforms = [] ∧
    (∀ fuel2, update_transformsF fuel2 g1 = some g1) ∧
    (∀ fuel2 g2, update_transformsF fuel2 g1 = some g2 →
      ∀ d, (lookupNode g2 d).map (fun n => n.world_transform) =
        (lookupNode g1 d).map (fun n => n.world_transform)) := by
  have hd : g1.dirty_transforms = [] := by
    unfold update_transformsF at h1
    by_cases hdg : g.dirty_transforms = []
    · rw [if_pos hdg] at h1
      simp only [Option.some.injEq] at h1
      rw [← h1]
      exact hdg
    · rw [if_neg hdg] at h1
      cases hu : updateNodeF fuel g g.root mat4Id with
      | none => rw [hu] at h1; exact Option.noConfusion h1
      | some gu =>
        rw [hu] at h1
        simp only [Option.map_some', Option.some.injEq] at h1
        rw [← h1]
  have hsecond : ∀ fuel2, update_transformsF fuel2 g1 = some g1 := by
    intro fuel2
    unfold update_transformsF
    rw [if_pos hd]
  refine ⟨hd, hsecond, ?_⟩
  intro fuel2 g2 h2 d
  rw [hsecond fuel2] at h2
  simp only [Option.some.injEq] at h2
  rw [h2]

/-- C10: `update_transforms` only writes nodes reachable from the root
through children edges; a node that is not reachable (created but never
attached under the root) is left byte-for-byte unchanged, keeping the
identity world transform it was initialized with by `create_node`. -/
theorem C10_update_only_reachable (fuel : Nat) (g g' : SceneGraph)
    (hup : update_transformsF fuel g = some g')
    (d : Nat) (hnr : ¬ ReachesC (structList g.nodes) g.root d) :
    lookupNode g' d = lookupNode g d ∧
    (∀ g0 name, lookupNode (create_node g0 name).1 (create_node g0 name).2 =
      some (SceneNode.new name)) ∧
    (∀ name, (SceneNode.new name).world_transform = mat4Id) := by
  refine ⟨?_, ?_, fun name => rfl⟩
  · unfold update_transformsF at hup
    by_cases hdg : g.dirty_transforms = []
    · rw [if_pos hdg] at hup
      simp only [Option.some.injEq] at hup
      rw [← hup]
    · rw [if_neg hdg] at hup
      cases hu : updateNodeF fuel g g.root mat4Id with
      | none => rw [hu] at hup; exact Option.noConfusion hup
      | some gu =>
        rw [hu] at hup
        simp only [Option.map_some', Option.some.injEq] at hup
        have h1 : lookupNode g' d = lookupNode gu d := by
          rw [← hup]
          rfl
        rw [h1]
        exact updateNode_untouched fuel g g.root mat4Id gu hu d hnr
  · intro g0 name
    simpa [create_node, lookupNode] using
      lookupA_insertA_self g0.nodes g0.next_handle (SceneNode.new name)

/-- The structure with every edge into `c` removed. -/
def removeTarget (s : List (Nat × List Nat)) (c : Nat) : List (Nat × List Nat) :=
  s.map (fun p => (p.1, p.2.filter (fun h => h ≠ c)))

theorem removeTarget_lookup (s : List (Nat × List Nat)) (c a : Nat) :
    lookupA (removeTarget s c) a = (lookupA s a).map (fun cs => cs.filter (fun h => h ≠ c)) :=
  lookupA_map_val _ s a

theorem removeTarget_step {s : List (Nat × List Nat)} {c a b : Nat}
    (hab : stepRel s a b) (hbc : b ≠ c) : stepRel (removeTarget s c) a b := by
  obtain ⟨cs, hcs, hmem⟩ := hab
  refine ⟨cs.filter (fun h => h ≠ c), ?_, ?_⟩
  · rw [removeTarget_lookup, hcs]
    rfl
  · simp [List.mem_filter, hmem, hbc]

/-- Any path from `c` can be rerouted to avoid re-entering `c`: its
final segment after the last visit of `c` uses no edge into `c`. -/
theorem reach_avoid_reentry_aux {s : List (Nat × List Nat)} {c p : Nat} :
    ∀ n x, ReachesN s n x p →
      ReachesC (removeTarget s c) x p ∨ ∃ m, m < n ∧ ReachesN s m c p := by
  intro n
  induction n with
  | zero =>
    intro x h
    cases h
    exact Or.inl (ReachesC.refl _)
  | succ k ih =>
    intro x h
    cases h with
    | step hs ht =>
      rename_i z
      by_cases hz : z = c
      · subst hz
        exact Or.inr ⟨k, by omega, ht⟩
      · rcases ih z ht with hleft | ⟨m, hm, hmp⟩
        · exact Or.inl (ReachesC.step (removeTarget_step hs hz) hleft)
        · exact Or.inr ⟨m, by omega, hmp⟩

theorem reach_avoid_reentry {s : List (Nat × List Nat)} {c p : Nat}
    (h : ReachesC s c p) : ReachesC (removeTarget s c) c p := by
  obtain ⟨n, hn⟩ := h.toN
  induction n using Nat.strong_induction_on with
  | _ n ih =>
    rcases reach_avoid_reentry_aux n c hn with hleft | ⟨m, hm, hmp⟩
    · exact hleft
    · exact ih m hm hmp

/-- Every edge that avoids `c` as a target survives the attach edge
mutation, and the new parent gains the edge to the child. -/
theorem attachEdges_edge_superset (g : SceneGraph) (c p a b : Nat)
    (hab : stepRel (removeTarget (structList g.nodes) c) a b) :
    stepRel (structList (attachEdges g c p).nodes) a b := by
  obtain ⟨csR, hcsR, hmem⟩ := hab
  rw [removeTarget_lookup] at hcsR
  cases hga : lookupA (structList g.nodes) a with
  | none => rw [hga] at hcsR; exact Option.noConfusion hcsR
  | some cs =>
    rw [hga] at hcsR
    simp only [Option.map_some', Option.some.injEq] at hcsR
    obtain ⟨na, hna, hnach⟩ := structList_lookup_inv hga
    have hbmem : b ∈ na.children := by
      rw [hnach]
      have := hmem
      rw [← hcsR] at this
      exact (List.mem_filter.mp this).1
    have hbc : b ≠ c := by
      have := hmem
      rw [← hcsR] at this
      have := (List.mem_filter.mp this).2
      simpa using this
    -- track the value of node `a` through the three stages
    obtain ⟨na1, hna1, hch1⟩ : ∃ na1, lookupNode (detachOld g c) a = some na1 ∧
        (na1.children = na.children ∨
          na1.children = na.children.filter (fun h => h ≠ c)) := by
      cases hop : (lookupNode g c).bind (fun n => n.parent) with
      | none => exact ⟨na, by rw [detachOld_none g c hop]; exact hna, Or.inl rfl⟩
      | some op =>
        by_cases hao : a = op
        · subst hao
          rw [detachOld_lookup_op g c a hop, hna]
          exact ⟨_, rfl, Or.inr rfl⟩
        · rw [detachOld_lookup_ne g c op a hop hao]
          exact ⟨na, hna, Or.inl rfl⟩
    obtain ⟨na2, hna2, hch2⟩ : ∃ na2,
        lookupNode (setParentNode (detachOld g c) c p) a = some na2 ∧
          na2.children = na1.children := by
      by_cases hac : a = c
      · subst hac
        rw [setParentNode_lookup_self, hna1]
        exact ⟨_, rfl, rfl⟩
      · rw [setParentNode_lookup_ne _ _ _ _ hac, hna1]
        exact ⟨na1, rfl, rfl⟩
    obtain ⟨na3, hna3, hch3⟩ : ∃ na3, lookupNode (attachEdges g c p) a = some na3 ∧
        (na3.children = na2.children ∨ na3.children = na2.children ++ [c]) := by
      unfold attachEdges
      by_cases hap : a = p
      · subst hap
        rw [appendChild_lookup_self, hna2]
        exact ⟨_, rfl, Or.inr rfl⟩
      · rw [appendChild_lookup_ne _ _ _ _ hap, hna2]
        exact ⟨na2, rfl, Or.inl rfl⟩
    refine ⟨na3.children, structList_lookup_children hna3, ?_⟩
    have hbin1 : b ∈ na1.children := by
      rcases hch1 with hch | hch
      · rw [hch]; exact hbmem
      · rw [hch]; simp [List.mem_filter, hbmem, hbc]
    have hbin2 : b ∈ na2.children := by rw [hch2]; exact hbin1
    rcases hch3 with hch | hch
    · rw [hch]; exact hbin2
    · rw [hch]; simp [hbin2]

/-- The attach edge mutation adds the edge from the new parent to the
child. -/
theorem attachEdges_new_edge (g : SceneGraph) (c p : Nat) (np : SceneNode)
    (hp : lookupNode g p = some np) :
    stepRel (structList (attachEdges g c p).nodes) p c := by
  obtain ⟨np1, hnp1⟩ : ∃ np1, lookupNode (detachOld g c) p = some np1 := by
    cases hop : (lookupNode g c).bind (fun n => n.parent) with
    | none => exact ⟨np, by rw [detachOld_none g c hop]; exact hp⟩
    | some op =>
      by_cases hpo : p = op
      · subst hpo
        rw [detachOld_lookup_op g c p hop, hp]
        exact ⟨_, rfl⟩
      · rw [detachOld_lookup_ne g c op p hop hpo]
        exact ⟨np, hp⟩
  obtain ⟨np2, hnp2⟩ : ∃ np2,
      lookupNode (setParentNode (detachOld g c) c p) p = some np2 := by
    by_cases hpc : p = c
    · subst hpc
      rw [setParentNode_lookup_self, hnp1]
      exact ⟨_, rfl⟩
    · rw [setParentNode_lookup_ne _ _ _ _ hpc, hnp1]
      exact ⟨np1, rfl⟩
  have h3 : lookupNode (attachEdges g c p) p = some { np2 with children := np2.children ++ [c] } := by
    unfold attachEdges
    rw [appendChild_lookup_self, hnp2]
    rfl
  exact ⟨np2.children ++ [c], structList_lookup_children h3, by simp⟩

/-- C9: under an acyclic children structure the recursive
`mark_transform_dirty` and `update_transforms` traversals terminate for
every graph state; `attach_to_parent` performs no cycle check — asked to
reparent a node under a node of its own subtree it reaches the
dirty-marking recursion, which then never terminates (no fuel bound
completes it) — and the recompute traversal likewise never terminates
once a cycle is reachable from the root. -/
theorem C9_traversal_termination :
    (∀ g h, Acyclic (structList g.nodes) → ∃ fuel, (markDirtyF fuel g h).isSome) ∧
    (∀ g, Acyclic (structList g.nodes) → ∃ fuel, (update_transformsF fuel g).isSome) ∧
    (∀ g c p np, lookupNode g c ≠ none → lookupNode g p = some np →
      ReachesC (structList g.nodes) c p →
      ∀ fuel, attach_to_parentF fuel g c p = none) ∧
    (∀ g x, ReachesC (structList g.nodes) g.root x →
      ProperReach (structList g.nodes) x x → g.dirty_transforms ≠ [] →
      ∀ fuel, update_transformsF fuel g = none) := by
  refine ⟨markDirty_terminates, updateTransforms_terminates, ?_, ?_⟩
  · intro g c p np hc hp hreach fuel
    have hcc : containsNode g c = true := by
      unfold containsNode
      cases hlk : lookupNode g c with
      | none => exact absurd hlk hc
      | some nc => rfl
    have hcp : containsNode g p = true := by simp [containsNode, hp]
    rw [attach_unfold fuel g c p hcc hcp]
    set s' := structList (attachEdges g c p).nodes with hs'
    have hcp' : ReachesC s' c p :=
      (reach_avoid_reentry hreach).mono
        (fun a b hab => attachEdges_edge_superset g c p a b hab)
    have hpc' : stepRel s' p c := attachEdges_new_edge g c p np hp
    have hcyc : ProperReach s' c c := by
      rcases hcp'.cases_head with heq | ⟨z, hz, hzp⟩
      · subst heq
        exact ⟨c, hpc', ReachesC.refl c⟩
      · exact ⟨z, hz, hzp.snoc hpc'⟩
    have hdiv : markDirtyF fuel (attachEdges g c p) c = none :=
      markDirty_diverges hcyc fuel c (attachEdges g c p) (ReachesC.refl c) rfl
    rw [hdiv]
    rfl
  · intro g x hrx hcyc hdirty fuel
    unfold update_transformsF
    rw [if_neg hdirty]
    have hdiv : updateNodeF fuel g g.root mat4Id = none :=
      updateNode_diverges hcyc fuel g.root g mat4Id hrx rfl
    rw [hdiv]
    rfl

/-! ### The world-transform equation established by the recompute pass -/

/-- The invariant the recompute pass establishes at a visited node `d`:
some present node `q` lists `d` among its children, and the final world
transform of `d` is `q`'s final world transform times `d`'s local
matrix. -/
def worldTriple (s : List (Nat × List Nat)) (g' : SceneGraph) (d : Nat) : Prop :=
  ∃ q nq nd, stepRel s q d ∧ lookupNode g' q = some nq ∧ lookupNode g' d = some nd ∧
    nd.world_transform = Mat4.mul nq.world_transform nd.transform.toMatrix

/-- Every edge target is itself present in the structure (a consequence
of parent/children consistency). -/
def ClosedS (s : List (Nat × List Nat)) : Prop :=
  ∀ a b, stepRel s a b → ∃ cs, lookupA s b = some cs

theorem closedS_of_consistent {g : SceneGraph} (hC : Consistent g) :
    ClosedS (structList g.nodes) := by
  rintro a b ⟨cs, hcs, hb⟩
  obtain ⟨na, hna, hch⟩ := structList_lookup_inv hcs
  obtain ⟨nb, hnb, -⟩ := hC a na hna b (by rw [hch]; exact hb)
  exact ⟨nb.children, structList_lookup_children hnb⟩

/-- Correctness of a left-to-right fold of `updateNodeF` over a
children list: every node reachable from one of the listed children
ends up satisfying the world-transform equation.  The anchor node `h`
is the common parent of the listed children, and its current world
transform is the matrix `W` being pushed down. -/
theorem updateNode_fold_worlds (fuel : Nat) (s : List (Nat × List Nat))
    (hA : Acyclic s) (hClosed : ClosedS s) (W : Mat4) (h : Nat)
    (hIH : ∀ g c g', structList g.nodes = s → updateNodeF fuel g c W = some g' →
      ((∀ n, lookupNode g c = some n →
          lookupNode g' c = some { n with world_transform := Mat4.mul W n.transform.toMatrix }) ∧
        (∀ d, ReachesC s c d → d ≠ c → worldTriple s g' d))) :
    ∀ l g g', structList g.nodes = s →
      foldChildren (fun acc c => updateNodeF fuel acc c W) g l = some g' →
      (∀ c ∈ l, stepRel s h c) →
      (∃ nh, lookupNode g h = some nh ∧ nh.world_transform = W) →
      ∀ d, (∃ c ∈ l, ReachesC s c d) → worldTriple s g' d := by
  intro l
  induction l with
  | nil =>
    intro g g' _ _ _ _ d hd
    obtain ⟨c, hc, -⟩ := hd
    simp at hc
  | cons c cs ih =>
    intro g g' hs hfold hsteps hanchor d hd
    simp only [foldChildren] at hfold
    cases hfc : updateNodeF fuel g c W with
    | none => rw [hfc] at hfold; exact absurd hfold (by simp)
    | some g1 =>
      rw [hfc] at hfold
      have hs1 : structList g1.nodes = s := (updateNode_struct hfc).trans hs
      have hstepc : stepRel s h c := hsteps c (by simp)
      obtain ⟨nh, hnh, hnhW⟩ := hanchor
      have hg1h : lookupNode g1 h = some nh := by
        rw [updateNode_untouched fuel g c W g1 hfc h
          (by rw [hs]; exact fun hr => child_not_reach_parent hA hstepc hr)]
        exact hnh
      by_cases hlater : ∃ c' ∈ cs, ReachesC s c' d
      · exact ih g1 g' hs1 hfold (fun c' hc' => hsteps c' (by simp [hc']))
          ⟨nh, hg1h, hnhW⟩ d hlater
      · obtain ⟨c0, hc0mem, hc0d⟩ := hd
        have hcd : ReachesC s c d := by
          rcases List.mem_cons.mp hc0mem with heq | hc0cs
          · rw [← heq]; exact hc0d
          · exact absurd ⟨c0, hc0cs, hc0d⟩ hlater
        have htrip : worldTriple s g1 d := by
          by_cases hdc : d = c
          · obtain ⟨csc, hcsc⟩ := hClosed h c hstepc
            rw [← hs] at hcsc
            obtain ⟨nc, hnc, -⟩ := structList_lookup_inv hcsc
            have hu1 := (hIH g c g1 hs hfc).1 nc hnc
            rw [hdc]
            refine ⟨h, nh, _, hstepc, hg1h, hu1, ?_⟩
            show Mat4.mul W nc.transform.toMatrix
              = Mat4.mul nh.world_transform nc.transform.toMatrix
            rw [hnhW]
          · exact (hIH g c g1 hs hfc).2 d hcd hdc
        obtain ⟨q, nq, nd, hq, hlq, hld, heq⟩ := htrip
        have hpresd : lookupNode g' d = lookupNode g1 d := by
          refine updateNode_untouched_aux fuel W d
            (fun ga ha ga' hua hna => updateNode_untouched fuel ga ha W ga' hua d hna)
            cs g1 g' hfold ?_
          intro c' hc'
          rw [hs1]
          exact fun hr => hlater ⟨c', hc', hr⟩
        have hpresq : lookupNode g' q = lookupNode g1 q := by
          refine updateNode_untouched_aux fuel W q
            (fun ga ha ga' hua hna => updateNode_untouched fuel ga ha W ga' hua q hna)
            cs g1 g' hfold ?_
          intro c' hc'
          rw [hs1]
          exact fun hr => hlater ⟨c', hc', hr.snoc hq⟩
        exact ⟨q, nq, nd, hq, by rw [hpresq]; exact hlq, by rw [hpresd]; exact hld, heq⟩

/-- Correctness of the recursive world-transform recompute
(`update_node_transform`): it writes `parent_world * local` at the
start node and establishes the parent/child world equation at every
node reachable below it through children edges. -/
theorem updateNode_worlds :
    ∀ fuel g h W g', Acyclic (structList g.nodes) → ClosedS (structList g.nodes) →
      updateNodeF fuel g h W = some g' →
      ((∀ n, lookupNode g h = some n →
          lookupNode g' h = some { n with world_transform := Mat4.mul W n.transform.toMatrix }) ∧
        (∀ d, ReachesC (structList g.nodes) h d → d ≠ h →
          worldTriple (structList g.nodes) g' d)) := by
  intro fuel
  induction fuel with
  | zero => intro g h W g' _ _ hu; simp [updateNodeF] at hu
  | succ fuel ih =>
    intro g h W g' hA hClosed hu
    simp only [updateNodeF] at hu
    cases hlk : lookupNode g h with
    | none =>
      rw [hlk] at hu
      simp only [Option.some.injEq] at hu
      subst hu
      constructor
      · intro n hn
        exact Option.noConfusion hn
      · intro d hr hne
        rcases hr.cases_head with heq | ⟨b, ⟨cs, hcs, hbm⟩, hbd⟩
        · exact absurd heq.symm hne
        · rw [lookupA_structList, show lookupA g.nodes h = lookupNode g h from rfl, hlk] at hcs
          simp at hcs
    | some node =>
      rw [hlk] at hu
      set world := Mat4.mul W node.transform.toMatrix with hworld
      set g1 : SceneGraph := { g with nodes := (modifyA g.nodes h
        (fun n => { n with world_transform := world })) } with hg1
      have hshape1 : shapeList g1.nodes = shapeList g.nodes := by
        rw [hg1]
        exact modifyA_shapeList g.nodes h
          (fun n => { n with world_transform := world }) (fun n => rfl)
      have hs1 : structList g1.nodes = structList g.nodes := structList_of_shapeList hshape1
      have hlk1 : lookupNode g1 h = some { node with world_transform := world } := by
        rw [hg1]
        show lookupA (modifyA g.nodes h (fun n => { n with world_transform := world })) h
          = some { node with world_transform := world }
        rw [lookupA_modifyA_self, show lookupA g.nodes h = lookupNode g h from rfl, hlk]
        rfl
      have hedge : ∀ c ∈ node.children, stepRel (structList g.nodes) h c :=
        fun c hc => ⟨node.children, structList_lookup_children hlk, hc⟩
      have hanchor : ∃ nh, lookupNode g1 h = some nh ∧ nh.world_transform = world :=
        ⟨{ node with world_transform := world }, hlk1, rfl⟩
      have hIHs : ∀ g2 c g2', structList g2.nodes = structList g.nodes →
          updateNodeF fuel g2 c world = some g2' →
          ((∀ n, lookupNode g2 c = some n → lookupNode g2' c =
              some { n with world_transform := Mat4.mul world n.transform.toMatrix }) ∧
            (∀ d, ReachesC (structList g.nodes) c d → d ≠ c →
              worldTriple (structList g.nodes) g2' d)) := by
        intro g2 c g2' hs2 hu2
        have h2 := ih g2 c world g2' (by rw [hs2]; exact hA) (by rw [hs2]; exact hClosed) hu2
        rw [hs2] at h2
        exact h2
      constructor
      · intro n hn
        obtain rfl := Option.some.inj hn
        have hfU : lookupNode g' h = lookupNode g1 h := by
          refine updateNode_untouched_aux fuel world h
            (fun ga ha ga' hua hna => updateNode_untouched fuel ga ha world ga' hua h hna)
            node.children g1 g' hu ?_
          intro c hc
          rw [hs1]
          exact fun hr => child_not_reach_parent hA (hedge c hc) hr
        rw [hfU, hlk1, hworld]
      · intro d hr hne
        rcases hr.cases_head with heq | ⟨b, ⟨cs0, hcs0, hbm⟩, hbd⟩
        · exact absurd heq.symm hne
        · have hcseq : cs0 = node.children := by
            rw [structList_lookup_children hlk] at hcs0
            exact (Option.some.inj hcs0).symm
          subst hcseq
          exact updateNode_fold_worlds fuel (structList g.nodes) hA hClosed world h hIHs
            node.children g1 g' hs1 hu hedge hanchor d ⟨b, hbm, hbd⟩

/-- C1 (corrected): the frozen claim promises the world-transform
formula for every node of the table, but `update_node_transform` only
walks the subtree of the root, and `update_transforms` is a no-op on an
empty dirty set.  For a consistent, acyclic graph with a nonempty dirty
set, a completed `update_transforms` empties the dirty set, gives the
root a world transform equal to its own local matrix, gives every node
reachable from the root through children edges a world transform equal
to its parent's world transform times its own local matrix, and leaves
every node not reachable from the root (for example a
created-but-never-attached node) entirely unchanged, stale world
transform included. -/
theorem C1_world_formula (fuel : Nat) (g g' : SceneGraph)
    (hC : Consistent g) (hA : Acyclic (structList g.nodes))
    (hd : g.dirty_transforms ≠ [])
    (hup : update_transformsF fuel g = some g') :
    g'.dirty_transforms = [] ∧
    (∀ n, lookupNode g g.root = some n →
      ∃ n', lookupNode g' g.root = some n' ∧ n'.transform = n.transform ∧
        n'.world_transform = n'.transform.toMatrix) ∧
    (∀ d, ReachesC (structList g.nodes) g.root d → d ≠ g.root →
      ∃ q nq nd, stepRel (structList g.nodes) q d ∧ nd.parent = some q ∧
        lookupNode g' q = some nq ∧ lookupNode g' d = some nd ∧
        nd.world_transform = Mat4.mul nq.world_transform nd.transform.toMatrix) ∧
    (∀ d, ¬ ReachesC (structList g.nodes) g.root d → lookupNode g' d = lookupNode g d) := by
  unfold update_transformsF at hup
  rw [if_neg hd] at hup
  cases hu : updateNodeF fuel g g.root mat4Id with
  | none => rw [hu] at hup; exact Option.noConfusion hup
  | some gu =>
    rw [hu] at hup
    simp only [Option.map_some', Option.some.injEq] at hup
    subst hup
    have hClosedg : ClosedS (structList g.nodes) := closedS_of_consistent hC
    have hW := updateNode_worlds fuel g g.root mat4Id gu hA hClosedg hu
    have hshape : shapeList gu.nodes = shapeList g.nodes := updateNode_shape hu
    refine ⟨rfl, ?_, ?_, ?_⟩
    · intro n hn
      exact ⟨{ n with world_transform := Mat4.mul mat4Id n.transform.toMatrix },
        hW.1 n hn, rfl, Mat4.id_mul n.transform.toMatrix⟩
    · intro d hr hne
      have ht := hW.2 d hr hne
      obtain ⟨q, nq, nd, hq, hlq, hld, heq⟩ := ht
      obtain ⟨csq, hcsq, hdmem⟩ := hq
      obtain ⟨nq0, hnq0, hch⟩ := structList_lookup_inv hcsq
      obtain ⟨nd0, hnd0, hpar⟩ := hC q nq0 hnq0 d (by rw [hch]; exact hdmem)
      have hld' : lookupA gu.nodes d = some nd := hld
      have hnd0' : lookupA g.nodes d = some nd0 := hnd0
      have hsh := lookup_shape_of_shapeList hshape d
      rw [hld', hnd0'] at hsh
      simp only [Option.map_some'] at hsh
      have hshp : nd.shape = nd0.shape := Option.some.inj hsh
      have hparnd : nd.parent = some q := by
        have h6 : nd.parent = nd0.parent := congrArg NodeShape.parent hshp
        exact h6.trans hpar
      exact ⟨q, nq, nd, ⟨csq, hcsq, hdmem⟩, hparnd, hlq, hld, heq⟩
    · intro d hnr
      show lookupNode gu d = lookupNode g d
      exact updateNode_untouched fuel g g.root mat4Id gu hu d hnr

/-! ### Concrete graphs for witnesses and counterexamples -/

/-- A freshly constructed graph: only the root, handle 0. -/
def exRootOnly : SceneGraph := SceneGraph.new "root"

/-- Root plus one created (never attached) node with handle 1. -/
def exOneNode : SceneGraph := (create_node exRootOnly "a").1

/-- Root 0 with children 1 and then 2, built through the public
operations. -/
def exTwoChildren : SceneGraph :=
  (do
    let g2 := (create_node exOneNode "b").1
    let (g3, _) ← attach_to_parentF 9 g2 1 0
    let (g4, _) ← attach_to_parentF 9 g3 2 0
    pure g4 : Option SceneGraph).getD exRootOnly

theorem C4_mark_transform_dirty_witness :
    ∃ g', markDirtyF 9 exTwoChildren 0 = some g' ∧ g'.nodes = exTwoChildren.nodes ∧
      0 ∈ g'.dirty_transforms ∧ 1 ∈ g'.dirty_transforms ∧ 2 ∈ g'.dirty_transforms := by
  have hs : (markDirtyF 9 exTwoChildren 0).isSome = true := by decide
  obtain ⟨g', hg'⟩ := Option.isSome_iff_exists.mp hs
  have h := C4_mark_transform_dirty 9 exTwoChildren 0 g' hg'
  refine ⟨g', hg', h.1, h.2.2.2.1, ?_, ?_⟩
  · refine h.2.2.2.2.2.2.1 1 (ReachesC.step ⟨[1, 2], ?_, by simp⟩ (ReachesC.refl 1))
    decide
  · refine h.2.2.2.2.2.2.1 2 (ReachesC.step ⟨[1, 2], ?_, by simp⟩ (ReachesC.refl 2))
    decide

/-- The claim C4 as frozen is false: marking an absent handle is not a
no-op — the absent handle is still inserted into the dirty set.  Handle
5 is not a key of the fresh root-only table, whose dirty set is empty,
yet after the call the dirty set is `[5]`. -/
theorem C4_mark_transform_dirty_cex :
    lookupNode exRootOnly 5 = none ∧ exRootOnly.dirty_transforms = [] ∧
    (markDirtyF 1 exRootOnly 5).map (fun g => g.dirty_transforms) = some [5] ∧
    ([5] : List Nat) ≠ [] := by
  refine ⟨by decide, by decide, by decide, by decide⟩

theorem C8_update_idempotent_witness :
    ∃ g1, update_transformsF 3 exOneNode = some g1 ∧ g1.dirty_transforms = [] ∧
      update_transformsF 0 g1 = some g1 := by
  have hs : (update_transformsF 3 exOneNode).isSome = true := by decide
  obtain ⟨g1, hg1⟩ := Option.isSome_iff_exists.mp hs
  have h := C8_update_idempotent 3 exOneNode g1 hg1
  exact ⟨g1, hg1, h.1, h.2.1 0⟩

deriving instance DecidableEq for Except

theorem C2_attach_to_parent_witness :
    ∃ g', attach_to_parentF 9 exOneNode 1 0 = some (g', Except.ok ()) ∧
      (∃ n, lookupNode g' 1 = some n ∧ n.parent = some 0) ∧
      (∃ n, lookupNode g' 0 = some n ∧ n.children.count 1 = 1) := by
  have hs : (attach_to_parentF 9 exOneNode 1 0).map Prod.snd = some (Except.ok ()) := by
    decide
  obtain ⟨pr, hpr, hsnd⟩ := Option.map_eq_some'.mp hs
  have heq : attach_to_parentF 9 exOneNode 1 0 = some (pr.1, Except.ok ()) := by
    rw [hpr, ← hsnd]
  have h := C2_attach_to_parent 9 exOneNode 1 0 (consistent_of_consistentB (by decide))
  have hok := h.2.2 pr.1 heq
  exact ⟨pr.1, heq, hok.1, hok.2.1⟩

/-- The node of handle 1 inside `exTwoChildren`. -/
def c5nc : SceneNode := { SceneNode.new "a" with parent := some 0 }

/-- The root node inside `exTwoChildren`. -/
def c5np : SceneNode := { SceneNode.new "root" with children := [1, 2] }

theorem C5_reattach_same_parent_witness :
    ∃ g' r, attach_to_parentF 9 exTwoChildren 1 0 = some (g', r) ∧
      r = Except.ok () ∧
      lookupNode g' 0 = some { c5np with children := [2, 1] } := by
  have hs : (attach_to_parentF 9 exTwoChildren 1 0).isSome = true := by decide
  obtain ⟨pr, hpr⟩ := Option.isSome_iff_exists.mp hs
  have hat : attach_to_parentF 9 exTwoChildren 1 0 = some (pr.1, pr.2) := by
    rw [hpr]
  have h := C5_reattach_same_parent 9 exTwoChildren 1 0 c5nc c5np pr.1 pr.2
    (by decide) (by decide) (by decide) hat
  refine ⟨pr.1, pr.2, hat, h.1, ?_⟩
  rw [h.2.2.2.2.1]
  decide

/-- The claim C5 as frozen is false: reattaching node 1 to its current
parent 0 does not leave the children list `[1, 2]` exactly as it was —
node 1 moves to the end, giving `[2, 1]`. -/
theorem C5_reattach_same_parent_cex :
    (lookupNode exTwoChildren 0).map (fun n => n.children) = some [1, 2] ∧
    (lookupNode exTwoChildren 1).map (fun n => n.parent) = some (some 0) ∧
    ((attach_to_parentF 9 exTwoChildren 1 0).map
      (fun pr => (lookupNode pr.1 0).map (fun n => n.children))) = some (some [2, 1]) ∧
    ([2, 1] : List Nat) ≠ [1, 2] :=
  ⟨by decide, by decide, by decide, by decide⟩

theorem C10_update_only_reachable_witness :
    ∃ g', update_transformsF 3 exOneNode = some g' ∧
      lookupNode g' 1 = lookupNode exOneNode 1 := by
  have hs : (update_transformsF 3 exOneNode).isSome = true := by decide
  obtain ⟨g', hg'⟩ := Option.isSome_iff_exists.mp hs
  have hnr : ¬ ReachesC (structList exOneNode.nodes) exOneNode.root 1 := by
    intro hreach
    rcases hreach.cases_head with heq | ⟨z, ⟨cs, hcs, hmem⟩, _⟩
    · revert heq
      decide
    · have hcs0 : lookupA (structList exOneNode.nodes) exOneNode.root = some [] := by
        decide
      rw [hcs0] at hcs
      cases hcs
      simp at hmem
  have h := C10_update_only_reachable 3 exOneNode g' hg' 1 hnr
  exact ⟨g', hg', h.1⟩

/-- A three-node chain 0 → 1 → 2 (no cycle). -/
def cycAttachG : SceneGraph :=
  { nodes := [(0, { SceneNode.new "r" with children := [1] }),
              (1, { SceneNode.new "a" with parent := some 0, children := [2] }),
              (2, { SceneNode.new "b" with parent := some 1 })],
    root := 0, next_handle := 3, dirty_transforms := [] }

/-- A graph whose children edges contain the cycle 1 → 2 → 1, reachable
from the root, with a nonempty dirty set. -/
def cycUpdateG : SceneGraph :=
  { nodes := [(0, { SceneNode.new "r" with children := [1] }),
              (1, { SceneNode.new "a" with parent := some 0, children := [2] }),
              (2, { SceneNode.new "b" with parent := some 1, children := [1] })],
    root := 0, next_handle := 3, dirty_transforms := [0] }

theorem C9_traversal_termination_witness :
    (∃ fuel, (markDirtyF fuel exRootOnly 0).isSome) ∧
    (∃ fuel, (update_transformsF fuel exRootOnly).isSome) ∧
    (∀ fuel, attach_to_parentF fuel cycAttachG 1 2 = none) ∧
    (∀ fuel, update_transformsF fuel cycUpdateG = none) := by
  have hA : Acyclic (structList exRootOnly.nodes) := by
    have hstruct : structList exRootOnly.nodes = [(0, [])] := by decide
    rw [hstruct]
    rintro a ⟨z, ⟨cs, hcs, hmem⟩, -⟩
    by_cases h0 : (0 : Nat) = a
    · rw [lookupA, if_pos h0] at hcs
      cases hcs
      simp at hmem
    · rw [lookupA, if_neg h0, lookupA] at hcs
      exact Option.noConfusion hcs
  refine ⟨C9_traversal_termination.1 exRootOnly 0 hA,
    C9_traversal_termination.2.1 exRootOnly hA, ?_, ?_⟩
  · intro fuel
    refine C9_traversal_termination.2.2.1 cycAttachG 1 2
      ({ SceneNode.new "b" with parent := some 1 }) (by decide) (by decide) ?_ fuel
    exact ReachesC.step ⟨[2], by decide, by simp⟩ (ReachesC.refl 2)
  · intro fuel
    refine C9_traversal_termination.2.2.2 cycUpdateG 1 ?_ ?_ (by decide) fuel
    · exact ReachesC.step ⟨[1], by decide, by simp⟩ (ReachesC.refl 1)
    · exact ⟨2, ⟨[2], by decide, by simp⟩,
        ReachesC.step ⟨[1], by decide, by simp⟩ (ReachesC.refl 1)⟩

/-- A local transform that translates by one unit along x. -/
def c1cexT : Transform := { position := ⟨1, 0, 0⟩, rotation := quatId, scale := vec3One }

/-- Create a node, never attach it, give it a non-identity local
transform, then recompute: the mutation sequence of the C1
counterexample. -/
def c1cexG : Option SceneGraph :=
  (set_transformF 2 exOneNode 1 c1cexT).bind (update_transformsF 3)

/-- The claim C1 as frozen is false: after `update_transforms()` the
dirty set is empty, but the created-and-never-attached node 1 — a node
of the table with no parent — keeps its initial identity world
transform, which differs from its own local matrix (a unit translation),
violating the claimed formula. -/
theorem C1_world_formula_cex :
    (c1cexG.map (fun g => g.dirty_transforms)) = some [] ∧
    (c1cexG.bind (fun g => lookupNode g 1)) =
      some { SceneNode.new "a" with transform := c1cexT } ∧
    ({ SceneNode.new "a" with transform := c1cexT } : SceneNode).parent = none ∧
    ({ SceneNode.new "a" with transform := c1cexT } : SceneNode).world_transform ≠
      ({ SceneNode.new "a" with transform := c1cexT } : SceneNode).transform.toMatrix := by
  refine ⟨by decide, by decide, by decide, ?_⟩
  intro h
  have h3 := congrArg Mat4.m03 h
  simp [SceneNode.new, c1cexT, Transform.toMatrix, Mat4.mul, translationM, quatToMat4,
    scalingM, mat4Id, vec3One, quatId] at h3

/-- Witness for C1: on the two-node graph whose node 1 was created but
never attached (dirty set nonempty), the recompute succeeds, empties
the dirty set, sets the root world transform to the root's own local
matrix, and leaves the unattached node 1 untouched. -/
theorem C1_world_formula_witness :
    ∃ g', update_transformsF 3 exOneNode = some g' ∧
      g'.dirty_transforms = [] ∧
      (∃ n', lookupNode g' exOneNode.root = some n' ∧
        n'.world_transform = n'.transform.toMatrix) ∧
      lookupNode g' 1 = lookupNode exOneNode 1 := by
  have hss : (update_transformsF 3 exOneNode).isSome = true := by decide
  obtain ⟨g', hg'⟩ := Option.isSome_iff_exists.mp hss
  have hC : Consistent exOneNode := consistent_of_consistentB (by decide)
  have hA : Acyclic (structList exOneNode.nodes) := by
    have hstruct : structList exOneNode.nodes = [(0, []), (1, [])] := by decide
    rw [hstruct]
    rintro a ⟨z, ⟨cs, hcs, hmem⟩, -⟩
    by_cases h0 : (0 : Nat) = a
    · rw [lookupA, if_pos h0] at hcs
      cases hcs
      simp at hmem
    · rw [lookupA, if_neg h0] at hcs
      by_cases h1 : (1 : Nat) = a
      · rw [lookupA, if_pos h1] at hcs
        cases hcs
        simp at hmem
      · rw [lookupA, if_neg h1, lookupA] at hcs
        exact Option.noConfusion hcs
  have hdne : exOneNode.dirty_transforms ≠ [] := by decide
  have h := C1_world_formula 3 exOneNode g' hC hA hdne hg'
  have hn : lookupNode exOneNode exOneNode.root = some (SceneNode.new "root") := rfl
  obtain ⟨n', hn'1, -, hn'3⟩ := h.2.1 (SceneNode.new "root") hn
  have hnr : ¬ ReachesC (structList exOneNode.nodes) exOneNode.root 1 := by
    intro hreach
    rcases hreach.cases_head with heq | ⟨z, ⟨cs, hcs, hmem⟩, -⟩
    · revert heq
      decide
    · have hcs0 : lookupA (structList exOneNode.nodes) exOneNode.root = some [] := by decide
      rw [hcs0] at hcs
      cases hcs
      simp at hmem
  exact ⟨g', hg', h.1, ⟨n', hn'1, hn'3⟩, h.2.2.2 1 hnr⟩

/-! ### Instance manager lemmas -/

theorem update_instances_max (m : InstanceManager) (h : Nat) (instances : List Instance) :
    (update_instances m h instances).max_instances_per_buffer =
      m.max_instances_per_buffer := by
  unfold update_instances create_instance_buffer
  cases lookupA m.instance_buffers h with
  | none => rfl
  | some b =>
    by_cases hle : instances.length ≤ m.max_instances_per_buffer
    · simp [hle]
    · simp [hle]

theorem create_instance_buffer_counts (m : InstanceManager) (h : Nat)
    (data : List InstanceRaw) :
    (create_instance_buffer m h data).instance_counts = m.instance_counts := rfl

theorem update_instances_counts (m : InstanceManager) (h : Nat) (instances : List Instance) :
    (update_instances m h instances).instance_counts =
      insertA m.instance_counts h (instances.length % 2^32) := by
  unfold update_instances
  cases lookupA m.instance_buffers h with
  | none => rfl
  | some b =>
    by_cases hle : instances.length ≤ m.max_instances_per_buffer
    · simp [hle]
    · simp [hle, create_instance_buffer]

theorem update_instances_buffers_none (m : InstanceManager) (h : Nat)
    (instances : List Instance) (hnone : lookupA m.instance_buffers h = none) :
    (update_instances m h instances).instance_buffers =
      insertA m.instance_buffers h
        ⟨listResize (instances.map Instance.toRaw)
          (max (instances.map Instance.toRaw).length m.max_instances_per_buffer)
          identityRaw⟩ := by
  unfold update_instances create_instance_buffer
  rw [hnone]

theorem update_instances_buffers_inplace (m : InstanceManager) (h : Nat)
    (instances : List Instance) (b : GPUBuffer)
    (hb : lookupA m.instance_buffers h = some b)
    (hle : instances.length ≤ m.max_instances_per_buffer) :
    (update_instances m h instances).instance_buffers =
      insertA m.instance_buffers h (writeBuffer b (instances.map Instance.toRaw)) := by
  unfold update_instances
  rw [hb]
  simp [hle]

theorem update_instances_buffers_recreate (m : InstanceManager) (h : Nat)
    (instances : List Instance) (b : GPUBuffer)
    (hb : lookupA m.instance_buffers h = some b)
    (hgt : ¬ instances.length ≤ m.max_instances_per_buffer) :
    (update_instances m h instances).instance_buffers =
      insertA m.instance_buffers h
        ⟨listResize (instances.map Instance.toRaw)
          (max (instances.map Instance.toRaw).length m.max_instances_per_buffer)
          identityRaw⟩ := by
  unfold update_instances create_instance_buffer
  rw [hb]
  simp [hgt]

theorem listResize_length {α : Type} (l : List α) (n : Nat) (v : α) :
    (listResize l n v).length = n := by
  unfold listResize
  by_cases hle : n ≤ l.length
  · simp [hle]
  · simp [hle]
    omega

theorem listResize_eq_append {α : Type} (l : List α) (n : Nat) (v : α)
    (hge : l.length ≤ n) :
    listResize l n v = l ++ List.replicate (n - l.length) v := by
  unfold listResize
  by_cases hle : n ≤ l.length
  · have : n = l.length := by omega
    simp [hle, this]
  · simp [hle]

theorem writeBuffer_length (b : GPUBuffer) (xs : List InstanceRaw)
    (hle : xs.length ≤ b.data.length) :
    (writeBuffer b xs).data.length = b.data.length := by
  simp [writeBuffer]
  omega

/-- The instance manager states constructed by the public operations. -/
inductive MReach : InstanceManager → Prop
  | new (M : Nat) : MReach (InstanceManager.new M)
  | update (m : InstanceManager) (h : Nat) (instances : List Instance) :
      MReach m → MReach (update_instances m h instances)
  | remove (m : InstanceManager) (h : Nat) :
      MReach m → MReach (remove_node m h)

/-- Invariant of reachable manager states: every recorded count has a
buffer at least that long, and every buffer is at least the configured
per-buffer maximum long. -/
def MInv (m : InstanceManager) : Prop :=
  (∀ h cnt, lookupA m.instance_counts h = some cnt →
    ∃ b, lookupA m.instance_buffers h = some b ∧ cnt ≤ b.data.length) ∧
  (∀ h b, lookupA m.instance_buffers h = some b →
    m.max_instances_per_buffer ≤ b.data.length)

theorem MInv_of_MReach {m : InstanceManager} (hm : MReach m) : MInv m := by
  induction hm with
  | new M =>
    constructor
    · intro h cnt hc
      simp [InstanceManager.new, lookupA] at hc
    · intro h b hb
      simp [InstanceManager.new, lookupA] at hb
  | update m h instances hm ih =>
    obtain ⟨ih1, ih2⟩ := ih
    have hmax := update_instances_max m h instances
    have hcounts := update_instances_counts m h instances
    have hbufshape : ∃ bnew, (update_instances m h instances).instance_buffers =
        insertA m.instance_buffers h bnew ∧
        instances.length % 2^32 ≤ bnew.data.length ∧
        m.max_instances_per_buffer ≤ bnew.data.length := by
      cases hb : lookupA m.instance_buffers h with
      | none =>
        refine ⟨_, update_instances_buffers_none m h instances hb, ?_, ?_⟩
        · simp only [listResize_length, List.length_map]
          exact le_trans (Nat.mod_le _ _) (Nat.le_max_left _ _)
        · simp only [listResize_length, List.length_map]
          exact Nat.le_max_right _ _
      | some b =>
        by_cases hle : instances.length ≤ m.max_instances_per_buffer
        · have hwl : (writeBuffer b (instances.map Instance.toRaw)).data.length =
              b.data.length := by
            refine writeBuffer_length b _ ?_
            rw [List.length_map]
            exact le_trans hle (ih2 h b hb)
          refine ⟨_, update_instances_buffers_inplace m h instances b hb hle, ?_, ?_⟩
          · rw [hwl]
            exact le_trans (Nat.mod_le _ _) (le_trans hle (ih2 h b hb))
          · rw [hwl]
            exact ih2 h b hb
        · refine ⟨_, update_instances_buffers_recreate m h instances b hb hle, ?_, ?_⟩
          · simp only [listResize_length, List.length_map]
            exact le_trans (Nat.mod_le _ _) (Nat.le_max_left _ _)
          · simp only [listResize_length, List.length_map]
            exact Nat.le_max_right _ _
    obtain ⟨bnew, hbuf, hcntle, hmaxle⟩ := hbufshape
    constructor
    · intro h' cnt hc
      rw [hcounts] at hc
      by_cases hh : h' = h
      · subst hh
        rw [lookupA_insertA_self] at hc
        cases hc
        rw [hbuf, lookupA_insertA_self]
        exact ⟨bnew, rfl, hcntle⟩
      · rw [lookupA_insertA_ne _ _ _ _ hh] at hc
        obtain ⟨b, hb, hble⟩ := ih1 h' cnt hc
        rw [hbuf, lookupA_insertA_ne _ _ _ _ hh]
        exact ⟨b, hb, hble⟩
    · intro h' b hb
      rw [hbuf] at hb
      rw [hmax]
      by_cases hh : h' = h
      · subst hh
        rw [lookupA_insertA_self] at hb
        cases hb
        exact hmaxle
      · rw [lookupA_insertA_ne _ _ _ _ hh] at hb
        exact ih2 h' b hb
  | remove m h hm ih =>
    obtain ⟨ih1, ih2⟩ := ih
    constructor
    · intro h' cnt hc
      unfold remove_node at hc ⊢
      simp only at hc ⊢
      by_cases hh : h' = h
      · subst hh
        rw [lookupA_removeA_self] at hc
        exact Option.noConfusion hc
      · rw [lookupA_removeA_ne _ _ _ hh] at hc
        obtain ⟨b, hb, hble⟩ := ih1 h' cnt hc
        rw [lookupA_removeA_ne _ _ _ hh]
        exact ⟨b, hb, hble⟩
    · intro h' b hb
      unfold remove_node at hb
      simp only at hb
      by_cases hh : h' = h
      · subst hh
        rw [lookupA_removeA_self] at hb
        exact Option.noConfusion hb
      · rw [lookupA_removeA_ne _ _ _ hh] at hb
        exact ih2 h' b hb

/-- C3 (amended): in every reachable manager state the recorded count is
at most the buffer's capacity (which is at least the configured
per-buffer maximum); an in-place update never changes the capacity; and
full recreation is triggered exactly when the new instance count exceeds
the configured per-buffer maximum — not the current buffer's capacity —
with new capacity `max(count, maximum)`, which can shrink the buffer. -/
theorem C3_capacity_invariant :
    (∀ m, MReach m → ∀ h cnt, lookupA m.instance_counts h = some cnt →
      ∃ b, lookupA m.instance_buffers h = some b ∧ cnt ≤ b.data.length ∧
        m.max_instances_per_buffer ≤ b.data.length) ∧
    (∀ m h instances b, MReach m → lookupA m.instance_buffers h = some b →
      instances.length ≤ m.max_instances_per_buffer →
      ∃ b', lookupA (update_instances m h instances).instance_buffers h = some b' ∧
        b'.data.length = b.data.length ∧
        b'.data = instances.map Instance.toRaw ++ b.data.drop instances.length) ∧
    (∀ m h instances b, lookupA m.instance_buffers h = some b →
      m.max_instances_per_buffer < instances.length →
      ∃ b', lookupA (update_instances m h instances).instance_buffers h = some b' ∧
        b'.data.length = instances.length) := by
  refine ⟨?_, ?_, ?_⟩
  · intro m hm h cnt hc
    obtain ⟨i1, i2⟩ := MInv_of_MReach hm
    obtain ⟨b, hb, hle⟩ := i1 h cnt hc
    exact ⟨b, hb, hle, i2 h b hb⟩
  · intro m h instances b hm hb hle
    obtain ⟨-, i2⟩ := MInv_of_MReach hm
    refine ⟨writeBuffer b (instances.map Instance.toRaw), ?_, ?_, by simp [writeBuffer]⟩
    · rw [update_instances_buffers_inplace m h instances b hb hle, lookupA_insertA_self]
    · refine writeBuffer_length b _ ?_
      rw [List.length_map]
      exact le_trans hle (i2 h b hb)
  · intro m h instances b hb hgt
    have hgt' : ¬ instances.length ≤ m.max_instances_per_buffer := by omega
    refine ⟨⟨listResize (instances.map Instance.toRaw)
        (max (instances.map Instance.toRaw).length m.max_instances_per_buffer)
        identityRaw⟩, ?_, ?_⟩
    · rw [update_instances_buffers_recreate m h instances b hb hgt', lookupA_insertA_self]
    · simp only [listResize_length, List.length_map]
      omega

/-- Two concrete manager states: per-buffer maximum 1, an update with
three instances, then an update with two instances. -/
def c3m1 : InstanceManager :=
  update_instances (InstanceManager.new 1) 0 [Instance.new, Instance.new, Instance.new]

/-- See `c3m1`. -/
def c3m2 : InstanceManager := update_instances c3m1 0 [Instance.new, Instance.new]

/-- The claim C3 as frozen is false: with a configured maximum of 1, a
buffer of capacity 3 followed by an update with 2 instances — a count
that does NOT exceed the current capacity 3 — is nevertheless fully
recreated, and its capacity shrinks from 3 to 2. -/
theorem C3_capacity_invariant_cex :
    (lookupA c3m1.instance_buffers 0).map (fun b => b.data.length) = some 3 ∧
    (lookupA c3m2.instance_buffers 0).map (fun b => b.data.length) = some 2 ∧
    (2 : Nat) ≤ 3 ∧ ¬ (3 : Nat) ≤ 2 :=
  ⟨by decide, by decide, by decide, by decide⟩

theorem C3_capacity_invariant_witness :
    ∃ b, lookupA c3m1.instance_buffers 0 = some b ∧ 3 ≤ b.data.length ∧
      1 ≤ b.data.length := by
  have hm : MReach c3m1 :=
    MReach.update _ _ _ (MReach.new 1)
  have hc : lookupA c3m1.instance_counts 0 = some 3 := by decide
  obtain ⟨b, hb, hle, hmax⟩ := C3_capacity_invariant.1 c3m1 hm 0 3 hc
  exact ⟨b, hb, hle, hmax⟩

/-- C6: starting with no buffer for the handle and counts 3, 2, 3 all
within the configured per-buffer maximum, only the first call takes the
buffer-creation path; the second and third calls overwrite the existing
buffer in place. -/
theorem C6_creation_once (m : InstanceManager) (h : Nat) (l1 l2 l3 : List Instance)
    (h1 : l1.length = 3) (h2 : l2.length = 2) (h3 : l3.length = 3)
    (hM : 3 ≤ m.max_instances_per_buffer)
    (hnone : lookupA m.instance_buffers h = none) :
    createsOnUpdate m h l1 = true ∧
    createsOnUpdate (update_instances m h l1) h l2 = false ∧
    createsOnUpdate (update_instances (update_instances m h l1) h l2) h l3 = false ∧
    (∃ b1, lookupA (update_instances m h l1).instance_buffers h = some b1 ∧
      lookupA (update_instances (update_instances m h l1) h l2).instance_buffers h =
        some (writeBuffer b1 (l2.map Instance.toRaw))) ∧
    (∃ b2, lookupA (update_instances (update_instances m h l1) h l2).instance_buffers h =
        some b2 ∧
      lookupA (update_instances (update_instances (update_instances m h l1) h l2) h l3).instance_buffers h =
        some (writeBuffer b2 (l3.map Instance.toRaw))) := by
  set m1 := update_instances m h l1 with hm1
  have hb1 : lookupA m1.instance_buffers h =
      some ⟨listResize (l1.map Instance.toRaw)
        (max (l1.map Instance.toRaw).length m.max_instances_per_buffer) identityRaw⟩ := by
    rw [hm1, update_instances_buffers_none m h l1 hnone, lookupA_insertA_self]
  have hmax1 : m1.max_instances_per_buffer = m.max_instances_per_buffer :=
    update_instances_max m h l1
  have hle2 : l2.length ≤ m1.max_instances_per_buffer := by
    rw [hmax1, h2]
    omega
  set m2 := update_instances m1 h l2 with hm2
  obtain ⟨b1, hb1'⟩ : ∃ b1, lookupA m1.instance_buffers h = some b1 := ⟨_, hb1⟩
  have hb2 : lookupA m2.instance_buffers h = some (writeBuffer b1 (l2.map Instance.toRaw)) := by
    rw [hm2, update_instances_buffers_inplace m1 h l2 b1 hb1' hle2, lookupA_insertA_self]
  have hmax2 : m2.max_instances_per_buffer = m.max_instances_per_buffer := by
    rw [hm2, update_instances_max, hmax1]
  have hle3 : l3.length ≤ m2.max_instances_per_buffer := by
    rw [hmax2, h3]
    omega
  refine ⟨?_, ?_, ?_, ⟨b1, hb1', hb2⟩, ?_⟩
  · unfold createsOnUpdate
    rw [hnone]
  · unfold createsOnUpdate
    rw [hb1']
    show decide (m1.max_instances_per_buffer < l2.length) = false
    simp only [decide_eq_false_iff_not, not_lt]
    rw [hmax1, h2]
    omega
  · unfold createsOnUpdate
    rw [hb2]
    show decide (m2.max_instances_per_buffer < l3.length) = false
    simp only [decide_eq_false_iff_not, not_lt]
    rw [hmax2, h3]
    omega
  · refine ⟨writeBuffer b1 (l2.map Instance.toRaw), hb2, ?_⟩
    rw [update_instances_buffers_inplace m2 h l3 _ hb2 hle3, lookupA_insertA_self]

theorem C6_creation_once_witness :
    createsOnUpdate (InstanceManager.new 5) 0 (List.replicate 3 Instance.new) = true ∧
    createsOnUpdate (update_instances (InstanceManager.new 5) 0 (List.replicate 3 Instance.new))
      0 (List.replicate 2 Instance.new) = false ∧
    createsOnUpdate (update_instances
      (update_instances (InstanceManager.new 5) 0 (List.replicate 3 Instance.new))
      0 (List.replicate 2 Instance.new)) 0 (List.replicate 3 Instance.new) = false := by
  have h := C6_creation_once (InstanceManager.new 5) 0
    (List.replicate 3 Instance.new) (List.replicate 2 Instance.new)
    (List.replicate 3 Instance.new) (by simp) (by simp) (by simp) (by decide) (by decide)
  exact ⟨h.1, h.2.1, h.2.2.1⟩

/-- C7 (amended): a created buffer has length `max(count, configured
capacity)` and every slot past the supplied records holds the
well-formed identity record; after `update_instances(h, instances)` the
recorded count for `h` is `instances.len() as u32`, i.e. the length
truncated mod `2^32` (equal to the length whenever it is below `2^32`);
the count is 0 for fresh managers, unaffected handles, and removed
handles. -/
theorem C7_buffer_padding_and_counts :
    (∀ m h data, ∃ b,
      lookupA (create_instance_buffer m h data).instance_buffers h = some b ∧
      b.data.length = max data.length m.max_instances_per_buffer ∧
      b.data = data ++ List.replicate
        (max data.length m.max_instances_per_buffer - data.length) identityRaw) ∧
    identityRaw.model = mat4Id ∧
    identityRaw.normal_matrix = ⟨1, 0, 0, 0, 0, 1, 0, 0, 0, 0, 1, 0⟩ ∧
    (∀ m h instances, get_instance_count (update_instances m h instances) h =
      instances.length % 2^32) ∧
    (∀ M h, get_instance_count (InstanceManager.new M) h = 0) ∧
    (∀ m h h' instances, h ≠ h' →
      get_instance_count (update_instances m h' instances) h = get_instance_count m h) ∧
    (∀ m h, get_instance_count (remove_node m h) h = 0) := by
  refine ⟨?_, rfl, rfl, ?_, ?_, ?_, ?_⟩
  · intro m h data
    refine ⟨⟨listResize data (max data.length m.max_instances_per_buffer) identityRaw⟩,
      ?_, ?_, ?_⟩
    · unfold create_instance_buffer
      exact lookupA_insertA_self _ _ _
    · exact listResize_length data _ identityRaw
    · exact listResize_eq_append data _ identityRaw (Nat.le_max_left _ _)
  · intro m h instances
    unfold get_instance_count
    rw [update_instances_counts, lookupA_insertA_self]
    rfl
  · intro M h
    rfl
  · intro m h h' instances hne
    unfold get_instance_count
    rw [update_instances_counts, lookupA_insertA_ne _ _ _ _ hne]
  · intro m h
    unfold get_instance_count remove_node
    simp only
    rw [lookupA_removeA_self]
    rfl

theorem C7_buffer_padding_and_counts_witness :
    get_instance_count (update_instances (InstanceManager.new 4) 3
      [Instance.new, Instance.new]) 3 = 2 ∧
    get_instance_count (update_instances (InstanceManager.new 4) 3
      [Instance.new, Instance.new]) 7 = 0 ∧
    (∃ b, lookupA (create_instance_buffer (InstanceManager.new 4) 3
        [Instance.new.toRaw]).instance_buffers 3 = some b ∧
      b.data.length = 4 ∧
      b.data = [Instance.new.toRaw] ++ List.replicate 3 identityRaw) := by
  have h := C7_buffer_padding_and_counts
  refine ⟨?_, ?_, ?_⟩
  · rw [h.2.2.2.1 (InstanceManager.new 4) 3 [Instance.new, Instance.new]]
    rfl
  · rw [h.2.2.2.2.2.1 (InstanceManager.new 4) 7 3 [Instance.new, Instance.new] (by decide)]
    exact h.2.2.2.2.1 4 7
  · obtain ⟨b, hb, hlen, hdata⟩ := h.1 (InstanceManager.new 4) 3 [Instance.new.toRaw]
    exact ⟨b, hb, hlen, hdata⟩

/-- The claim C7 as frozen is false for slices of length `2^32` or more:
`instances.len() as u32` truncates, so after an update with `2^32`
instances the recorded count is 0, not `2^32`. -/
theorem C7_buffer_padding_and_counts_cex :
    get_instance_count (update_instances (InstanceManager.new 4) 7
      (List.replicate (2^32) Instance.new)) 7 = 0 ∧
    (List.replicate (2^32) Instance.new).length = 2^32 ∧ (2^32 : Nat) ≠ 0 := by
  refine ⟨?_, List.length_replicate _ _, by norm_num⟩
  unfold get_instance_count
  rw [update_instances_counts, lookupA_insertA_self, Option.getD_some,
    List.length_replicate]
  exact Nat.mod_self _
